import Mathlib

/-!
Shallow embedding of `ts/types/BodyRange.ts` (Signal-Desktop): body-range
filtering and capping (`filterAndClean`), range-tree insertion
(`insertRange`), tree collapse into display segments (`collapseRangeTree`),
search-snippet range remapping (`processBodyRangesForSearchResult`), and
plain-text range application (`applyRangesForText`).

Strings are embedded as `List Char`; the source works on UTF-16 code units
and every input considered here is ASCII, where the two coincide unit for
unit.  JavaScript numbers are embedded as `Int`: all arithmetic in the
source is integer arithmetic on code-unit offsets and counts.
-/

namespace BodyRangeTs

/-- Styles: `Proto.DataMessage.BodyRange.Style`.  Modelled from the spec: the
protobuf enum is outside the inspected sources; §6 of the spec gives the
numbering NONE=0, BOLD=1, ITALIC=2, STRIKETHROUGH=3, MONOSPACE=4,
SPOILER=5. -/
inductive Style where
  | NONE
  | BOLD
  | ITALIC
  | STRIKETHROUGH
  | MONOSPACE
  | SPOILER
deriving DecidableEq

/-- Numeric value of a style enum member (modelled from the spec, §6).  Only
the fact that NONE is 0 and every other member is nonzero is ever used. -/
def Style.code : Style → Nat
  | .NONE => 0
  | .BOLD => 1
  | .ITALIC => 2
  | .STRIKETHROUGH => 3
  | .MONOSPACE => 4
  | .SPOILER => 5

/-- Raw ranges: `Proto.DataMessage.IBodyRange` as it reaches `filterAndClean`: every
field individually absent or malformed.  `start`/`length` are `none` exactly
when the source's `isNumber` guard fails. -/
structure IBodyRange where
  start : Option Int
  length : Option Int
  mentionUuid : Option String
  style : Option Style
deriving DecidableEq

/-- JS truthiness of `range.mentionUuid`: a missing or empty string is
falsy. -/
def mentionTruthy (r : IBodyRange) : Bool :=
  match r.mentionUuid with
  | none => false
  | some s => decide (s ≠ "")

/-- JS truthiness of `range.style`: a missing style is falsy, and so is the
member NONE, whose numeric value is 0. -/
def styleTruthy (r : IBodyRange) : Bool :=
  match r.style with
  | none => false
  | some st => decide (st.code ≠ 0)

/-- The cap `MAX_PER_TYPE` (ts/types/BodyRange.ts:142). -/
def MAX_PER_TYPE : Nat := 250

/-- The source's `countByTypeRecord`: one counter for mentions plus one per
style value. -/
structure CountByType where
  mentionCount : Nat
  styleCount : Style → Nat

/-- All counters start at 0. -/
def CountByType.init : CountByType := ⟨0, fun _ => 0⟩

/-- The increment `countByTypeRecord[range.style] += 1`. -/
def bumpStyle (c : CountByType) (st : Style) : CountByType :=
  ⟨c.mentionCount, fun s => if s = st then c.styleCount s + 1 else c.styleCount s⟩

/-- The `.filter` callback of `filterAndClean` folded over the list, with the
mutable `countByTypeRecord` made an explicit accumulator.  The trailing
`.map(range => ({...range}))` of the source is a shallow copy, the identity
here.  Note that a counter is incremented even when the element is then
dropped for exceeding the cap, exactly as `+= 1` runs before the cap
check. -/
def filterAndCleanGo (c : CountByType) : List IBodyRange → List IBodyRange
  | [] => []
  | r :: rest =>
    if r.start.isNone then filterAndCleanGo c rest
    else if r.length.isNone then filterAndCleanGo c rest
    else if mentionTruthy r then
      let c2 : CountByType := ⟨c.mentionCount + 1, c.styleCount⟩
      if MAX_PER_TYPE < c2.mentionCount then filterAndCleanGo c2 rest
      else r :: filterAndCleanGo c2 rest
    else if styleTruthy r then
      match r.style with
      | some st =>
        let c2 := bumpStyle c st
        if MAX_PER_TYPE < c2.styleCount st then filterAndCleanGo c2 rest
        else r :: filterAndCleanGo c2 rest
      | none => filterAndCleanGo c rest
    else filterAndCleanGo c rest

/-- The filter `filterAndClean` (ts/types/BodyRange.ts:146).  `undefined` and `null`
inputs both collapse to `none`. -/
def filterAndClean : Option (List IBodyRange) → Option (List IBodyRange)
  | none => none
  | some rs => some (filterAndCleanGo CountByType.init rs)

/-- The enum `DisplayStyle` (ts/types/BodyRange.ts:29): its only member. -/
inductive DisplayStyleKind where
  | SearchKeywordHighlight
deriving DecidableEq

/-- The discriminating payload of a range or range-tree node: hydrated
mention, link, formatting, or display-only. -/
inductive RKind where
  | mention (mentionUuid conversationID replacementText : String)
  | link (url : String)
  | formatting (style : Style) (spoilerId : Option Int)
  | displayOnly (displayStyle : DisplayStyleKind)
deriving DecidableEq

/-- A body range as passed to `insertRange`: `{start, length}` plus its
payload fields. -/
structure BRange where
  start : Int
  length : Int
  kind : RKind
deriving DecidableEq

/-- A `RangeNode` (ts/types/BodyRange.ts:129): a range plus nested child
ranges, the children's starts relative to the node's own start. -/
inductive RangeNode where
  | mk (start length : Int) (kind : RKind) (ranges : List RangeNode)

def RangeNode.start : RangeNode → Int
  | .mk s _ _ _ => s

def RangeNode.length : RangeNode → Int
  | .mk _ l _ _ => l

def RangeNode.kind : RangeNode → RKind
  | .mk _ _ k _ => k

def RangeNode.ranges : RangeNode → List RangeNode
  | .mk _ _ _ rs => rs

/-- The builder `insertRange` (ts/types/BodyRange.ts:229).  The thrown
`Error('unhandled range')` of the final branch is `Except.error`; an error
thrown inside a recursive call propagates outward through the monadic bind,
like a JS exception. -/
def insertRange (range : BRange) : List RangeNode → Except String (List RangeNode)
  | [] => .ok [.mk range.start range.length range.kind []]
  | .mk cs cl ck cranges :: rest =>
    let rangeEnd := range.start + range.length
    let currentEnd := cs + cl
    -- ends before current starts
    if rangeEnd ≤ cs then
      .ok (.mk range.start range.length range.kind [] :: .mk cs cl ck cranges :: rest)
    -- starts after current one ends
    else if currentEnd ≤ range.start then do
      let rest2 ← insertRange range rest
      .ok (.mk cs cl ck cranges :: rest2)
    -- range is contained by first
    else if cs ≤ range.start ∧ rangeEnd ≤ currentEnd then do
      let inner ← insertRange { range with start := range.start - cs } cranges
      .ok (.mk cs cl ck inner :: rest)
    -- range contains first (but might contain more): split range into 3
    else if range.start < cs ∧ currentEnd < rangeEnd then do
      let inner ← insertRange { range with start := 0, length := cl } cranges
      let tail2 ← insertRange { range with start := currentEnd, length := rangeEnd - currentEnd } rest
      .ok (.mk range.start (cs - range.start) range.kind [] :: .mk cs cl ck inner :: tail2)
    -- range intersects beginning: split range into 2
    else if range.start < cs ∧ rangeEnd ≤ currentEnd then do
      let inner ← insertRange { range with start := 0, length := range.length - (cs - range.start) } cranges
      .ok (.mk range.start (cs - range.start) range.kind [] :: .mk cs cl ck inner :: rest)
    -- range intersects ending: split range into 2
    else if cs ≤ range.start ∧ currentEnd < rangeEnd then do
      let inner ← insertRange { range with start := range.start - cs, length := currentEnd - range.start } cranges
      let tail2 ← insertRange { range with start := currentEnd, length := range.length - (currentEnd - range.start) } rest
      .ok (.mk cs cl ck inner :: tail2)
    else .error "unhandled range"

/-- The guard chain of `insertRange` against the head node, as an index:
`some i` when the i-th of the six source cases (0-5, in source order) fires,
`none` when the final `throw new Error('unhandled range')` would be reached.
The chain tests the conditions in source order, so the firing case is unique
by construction. -/
def insertRangeCase (range : BRange) (current : RangeNode) : Option (Fin 6) :=
  let rangeEnd := range.start + range.length
  let currentEnd := current.start + current.length
  if rangeEnd ≤ current.start then some 0
  else if currentEnd ≤ range.start then some 1
  else if current.start ≤ range.start ∧ rangeEnd ≤ currentEnd then some 2
  else if range.start < current.start ∧ currentEnd < rangeEnd then some 3
  else if range.start < current.start ∧ rangeEnd ≤ currentEnd then some 4
  else if current.start ≤ range.start ∧ currentEnd < rangeEnd then some 5
  else none

/-- Siblings sorted ascending by start and non-overlapping: each node ends at
or before the next one begins (boundary contact allowed). -/
def sortedDisjoint : List RangeNode → Bool
  | [] => true
  | [_] => true
  | a :: b :: rest => decide (a.start + a.length ≤ b.start) && sortedDisjoint (b :: rest)

/-- Every node of the list ends at or before position `h`. -/
def boundedBy (h : Int) : List RangeNode → Bool
  | [] => true
  | n :: ns => decide (n.start + n.length ≤ h) && boundedBy h ns

/-- Every node of the list starts at or after position `l`. -/
def lowerBoundedBy (l : Int) : List RangeNode → Bool
  | [] => true
  | n :: ns => decide (l ≤ n.start) && lowerBoundedBy l ns

mutual

/-- A node is well-formed: non-negative start and length, children sorted
ascending and non-overlapping, every child contained in the parent's span,
and the children recursively well-formed. -/
def nodeWF : RangeNode → Bool
  | .mk s l _ ranges =>
    decide (0 ≤ s) && decide (0 ≤ l) && sortedDisjoint ranges &&
      boundedBy l ranges && nodesWF ranges

/-- All nodes of a list are well-formed. -/
def nodesWF : List RangeNode → Bool
  | [] => true
  | n :: ns => nodeWF n && nodesWF ns

end

/-- The forest invariant of the range tree builder: siblings sorted and
non-overlapping at every level, every child inside its parent's span. -/
def forestWF (t : List RangeNode) : Bool :=
  sortedDisjoint t && nodesWF t

/-- A raw range whose start and length are both valid numbers (the two
`isNumber` guards of the filter). -/
def validNum (r : IBodyRange) : Bool :=
  r.start.isSome && r.length.isSome

/-- A raw range the filter classifies as a BOLD formatting range: no truthy
participant id, and carrying the BOLD style. -/
def isBoldRaw (r : IBodyRange) : Bool :=
  !(mentionTruthy r) && decide (r.style = some Style.BOLD)

/-- Concrete input for the cap-enforcement claim: 300 mention ranges
followed by 300 BOLD ranges, all with valid numeric start and length. -/
def c6Input : List IBodyRange :=
  (List.range 300).map (fun i => ⟨some (i : Int), some 1, some "u", none⟩) ++
    (List.range 300).map (fun i => ⟨some (i : Int), some 1, none, some Style.BOLD⟩)

/-- JS `String.prototype.slice` on code-unit lists: a negative index counts
from the end, and both indices clamp to `[0, length]`. -/
def jsSlice (s : List Char) (a b : Int) : List Char :=
  let len : Int := s.length
  let lo := if a < 0 then max (len + a) 0 else min a len
  let hi := if b < 0 then max (len + b) 0 else min b len
  (s.take hi.toNat).drop lo.toNat

/-- An entry of the `mentions` array pushed by `collapseRangeTree`: a
hydrated mention body range (`BodyRange<HydratedMention>`). -/
structure MentionEntry where
  start : Int
  length : Int
  mentionUuid : String
  conversationID : String
  replacementText : String
deriving DecidableEq

/-- A `PartialDisplayNode` (ts/types/BodyRange.ts:364): the formatting keys a
`DisplayNode` inherits from enclosing range nodes.  `none` plays the role of
a key absent from the JS object. -/
structure PartialDisplayNode where
  isBold : Option Bool := none
  isItalic : Option Bool := none
  isMonospace : Option Bool := none
  isSpoiler : Option Bool := none
  isStrikethrough : Option Bool := none
  url : Option String := none
  isKeywordHighlight : Option Bool := none
  spoilerId : Option Int := none
deriving DecidableEq

/-- A `DisplayNode` (ts/types/BodyRange.ts:341) as produced by
`collapseRangeTree`.  The `spoilerChildren` field is omitted: only
`groupContiguousSpoilers` (outside the claims treated here) ever sets it;
`collapseRangeTree` leaves it undefined on every node. -/
structure DisplayNode where
  text : List Char
  start : Int
  length : Int
  mentions : List MentionEntry
  isBold : Option Bool := none
  isItalic : Option Bool := none
  isMonospace : Option Bool := none
  isSpoiler : Option Bool := none
  isStrikethrough : Option Bool := none
  url : Option String := none
  isKeywordHighlight : Option Bool := none
  spoilerId : Option Int := none
deriving DecidableEq

/-- The mapping `rangeToPartialNode` (ts/types/BodyRange.ts:369).  The mention case
cannot occur in the source (the parameter type excludes mentions and the
only caller tests `isMention` first); it maps to the empty object here.
The style enum is closed, so the `missingCaseError` throws are
unreachable. -/
def rangeToPartialNode : RKind → PartialDisplayNode
  | .formatting st sid =>
    match st with
    | .BOLD => { isBold := some true }
    | .ITALIC => { isItalic := some true }
    | .MONOSPACE => { isMonospace := some true }
    | .SPOILER => { isSpoiler := some true, spoilerId := sid }
    | .STRIKETHROUGH => { isStrikethrough := some true }
    | .NONE => {}
  | .link u => { url := some u }
  | .displayOnly .SearchKeywordHighlight => { isKeywordHighlight := some true }
  | .mention _ _ _ => {}

/-- The JS spread `{...parentData, ...rangeToPartialNode(range)}`: a key of
the child object overrides the parent's exactly when present.  The only
producer of the child object is `rangeToPartialNode`, and its SPOILER branch
is the only one containing the `spoilerId` key — included even when
`range.spoilerId` is undefined, overriding any parent value — so the
`spoilerId` key is present in the child exactly when the child's `isSpoiler`
is set. -/
def spreadPartialNode (p c : PartialDisplayNode) : PartialDisplayNode where
  isBold := c.isBold.orElse fun _ => p.isBold
  isItalic := c.isItalic.orElse fun _ => p.isItalic
  isMonospace := c.isMonospace.orElse fun _ => p.isMonospace
  isSpoiler := c.isSpoiler.orElse fun _ => p.isSpoiler
  isStrikethrough := c.isStrikethrough.orElse fun _ => p.isStrikethrough
  url := c.url.orElse fun _ => p.url
  isKeywordHighlight := c.isKeywordHighlight.orElse fun _ => p.isKeywordHighlight
  spoilerId := if c.isSpoiler.isSome then c.spoilerId else p.spoilerId

/-- The spread `{...parentData, text, start, length, mentions}`: a `DisplayNode` built
from inherited formatting plus its own text, coordinates and pending
mentions. -/
def mkDisplayNode (p : PartialDisplayNode) (text : List Char) (start length : Int)
    (mentions : List MentionEntry) : DisplayNode where
  text := text
  start := start
  length := length
  mentions := mentions
  isBold := p.isBold
  isItalic := p.isItalic
  isMonospace := p.isMonospace
  isSpoiler := p.isSpoiler
  isStrikethrough := p.isStrikethrough
  url := p.url
  isKeywordHighlight := p.isKeywordHighlight
  spoilerId := p.spoilerId

/-- The `tree.forEach` loop of `collapseRangeTree`, plus the trailing
segment: the source's mutable `collapsed`, `offset` and `mentions` become
the result list, the `offset` argument and the `mentions` accumulator.  A
mention node only pushes a pending mention entry (its start rebased by the
current cursor, its `ranges` key omitted); a non-mention node first emits
any gap segment since the cursor (flushing pending mentions), then recurses
into its own text slice with merged formatting, then continues after its
end. -/
def collapseGo (parentData : PartialDisplayNode) (parentOffset : Int)
    (text : List Char) (offset : Int) (mentions : List MentionEntry) :
    List RangeNode → List DisplayNode
  | [] =>
    -- Empty space after the last range
    if offset < (text.length : Int) then
      [mkDisplayNode parentData (jsSlice text offset text.length)
        (offset + parentOffset) ((text.length : Int) - offset) mentions]
    else []
  | .mk s l (.mention uuid cid rep) _children :: rest =>
    collapseGo parentData parentOffset text offset
      (mentions ++ [⟨s - offset, l, uuid, cid, rep⟩]) rest
  | .mk s l k children :: rest =>
    -- Empty space between start of current
    let pre : List DisplayNode :=
      if offset < s then
        [mkDisplayNode parentData (jsSlice text offset s) (offset + parentOffset)
          (s - offset) mentions]
      else []
    let mergedData := spreadPartialNode parentData (rangeToPartialNode k)
    let inner := collapseGo mergedData (s + parentOffset) (jsSlice text s (s + l)) 0 [] children
    let mentions2 := if offset < s then [] else mentions
    pre ++ inner ++ collapseGo parentData parentOffset text (s + l) mentions2 rest

/-- The collapser `collapseRangeTree` (ts/types/BodyRange.ts:415).  At the top-level call
`parentData` is undefined (spreads as the empty object) and `parentOffset`
defaults to 0. -/
def collapseRangeTree (parentData : PartialDisplayNode) (parentOffset : Int)
    (text : List Char) (tree : List RangeNode) : List DisplayNode :=
  collapseGo parentData parentOffset text 0 [] tree

/-- The tree transformation of claim C10: replace the children list of every
mention node by the empty list, recursively. -/
def stripMentionChildren : List RangeNode → List RangeNode
  | [] => []
  | .mk s l (.mention uuid cid rep) _children :: rest =>
    .mk s l (.mention uuid cid rep) [] :: stripMentionChildren rest
  | .mk s l k children :: rest =>
    .mk s l k (stripMentionChildren children) :: stripMentionChildren rest

/-- Folding `insertRange` over a list of ranges, starting from a given
forest (the callers build their tree with `ranges.reduce(insertRange, [])`,
modulo argument order). -/
def insertAll (t : List RangeNode) : List BRange → Except String (List RangeNode)
  | [] => .ok t
  | r :: rs =>
    match insertRange r t with
    | .error e => .error e
    | .ok t2 => insertAll t2 rs

/-- Position `pos` is covered, in absolute coordinates with the forest based
at `base`, by some node of kind `k` at some depth of the forest. -/
def coversAbs (k : RKind) (pos : Int) : List RangeNode → Int → Bool
  | [], _ => false
  | .mk s l kk children :: rest, base =>
    (decide (kk = k) && decide (base + s ≤ pos) && decide (pos < base + s + l)) ||
      coversAbs k pos children (base + s) || coversAbs k pos rest base

/-- A formatting body range (`BodyRange<BodyRange.Formatting>`) as passed in
the `spoilers` argument of `applyRangesForText`. -/
structure FRange where
  start : Int
  length : Int
  style : Style
  spoilerId : Option Int
deriving DecidableEq

/-- The constant `SPOILER_REPLACEMENT` (ts/types/BodyRange.ts:621): four black squares,
each one UTF-16 code unit. -/
def SPOILER_REPLACEMENT : List Char := "■■■■".toList

/-- Stable insertion of `x` into a list sorted by `key` descending: `x` goes
after every element with an equal or greater key. -/
def insertKeyDesc (key : α → Int) (x : α) : List α → List α
  | [] => [x]
  | y :: ys => if key y < key x then x :: y :: ys else y :: insertKeyDesc key x ys

/-- Stable sort by `key` descending: the unique stable descending
reordering, matching `Array.prototype.sort` (stable per the ECMAScript
spec) with comparator `(a, b) => b.start - a.start`. -/
def sortByKeyDesc (key : α → Int) (l : List α) : List α :=
  l.foldl (fun acc x => insertKeyDesc key x acc) []

/-- The applier `applyRangesForText` (ts/types/BodyRange.ts:623).  `text` is
`string | undefined`, and JS `if (!text)` returns both `undefined` and the
empty string unchanged.  Spoiler ranges are applied in descending-start
order, each replacing its span by `SPOILER_REPLACEMENT`, dropping mentions
inside the span and shifting later mentions; then the surviving mentions are
applied in descending-start order, each replaced by `@replacementText`. -/
def applyRangesForText (text : Option (List Char)) (mentions : List MentionEntry)
    (spoilers : List FRange) : Option (List Char) :=
  match text with
  | none => none
  | some t =>
    if t.isEmpty then some t
    else
      let step := fun (acc : List Char × List MentionEntry) (sp : FRange) =>
        let left := jsSlice acc.1 0 sp.start
        let e := sp.start + sp.length
        let right := jsSlice acc.1 e acc.1.length
        let ms := (acc.2.filter fun m => decide (m.start < sp.start) || decide (e ≤ m.start)).map
          fun m =>
            if e ≤ m.start then
              { m with start := m.start - (sp.length - (SPOILER_REPLACEMENT.length : Int)) }
            else m
        (left ++ SPOILER_REPLACEMENT ++ right, ms)
      let folded := (sortByKeyDesc (fun sp => sp.start) spoilers).foldl step (t, mentions)
      some ((sortByKeyDesc (fun m => m.start) folded.2).foldl
        (fun acc m => jsSlice acc 0 m.start ++ ('@' :: m.replacementText.toList) ++
          jsSlice acc (m.start + m.length) acc.length)
        folded.1)

/-- The largest node end of a forest (0 for the empty forest): a bound for
`boundedBy` at the top level, where no parent constrains the spans. -/
def maxEndOf : List RangeNode → Int
  | [] => 0
  | n :: ns => max (n.start + n.length) (maxEndOf ns)

/-- Concatenation of the text fields of a display-node list, in output
order. -/
def joinTexts (l : List DisplayNode) : List Char :=
  (l.map (fun d => d.text)).flatten

/-- Modelled from the spec: the sentinel marker bracketing the start of a
highlighted keyword, supplied by the external full-text-search module
(`ts/util/search.ts`, outside the inspected sources); §6 of the spec
guarantees the markers never occur in ordinary message text.  The exact
characters are immaterial; the markers are nonempty, distinct, and free of
regex metacharacters. -/
def SNIPPET_LEFT_PLACEHOLDER : List Char := "<<left>>".toList

/-- Modelled from the spec: the sentinel marker closing a highlighted
keyword (see `SNIPPET_LEFT_PLACEHOLDER`). -/
def SNIPPET_RIGHT_PLACEHOLDER : List Char := "<<right>>".toList

/-- Modelled from the spec: the sentinel marker for snippet truncation (see
`SNIPPET_LEFT_PLACEHOLDER`). -/
def SNIPPET_TRUNCATION_PLACEHOLDER : List Char := "<<truncation>>".toList

/-- The ellipsis `TRUNCATION_CHAR` (ts/types/BodyRange.ts:519). -/
def TRUNCATION_CHAR : List Char := "...".toList

/-- JS `String.prototype.replace(new RegExp(pat, 'g'), rep)` for a literal,
metacharacter-free pattern: replace every leftmost non-overlapping
occurrence.  (The placeholders this is used with are nonempty; an empty
pattern is returned unchanged.) -/
def replaceAllSub (pat rep : List Char) : List Char → List Char
  | [] => []
  | c :: cs =>
    if h : pat ≠ [] ∧ pat.isPrefixOf (c :: cs) then
      rep ++ replaceAllSub pat rep ((c :: cs).drop pat.length)
    else c :: replaceAllSub pat rep cs
termination_by s => s.length
decreasing_by
  · simp only [List.length_drop, List.length_cons]
    have hp : 1 ≤ pat.length := by
      cases pat with
      | nil => exact absurd rfl h.1
      | cons p ps => simp
    omega
  · simp

/-- The index of the first occurrence of `pat` in `s` (the `exec` of a
regex-escaped literal pattern); `none` when there is no occurrence. -/
def findSubstrAux (pat : List Char) : List Char → Option Nat
  | [] => if pat = [] then some 0 else none
  | c :: cs =>
    if pat.isPrefixOf (c :: cs) then some 0
    else (findSubstrAux pat cs).map (fun i => i + 1)

/-- The strip `snippet.replace(TRUNCATION_START, '')`: drop one leading truncation
marker. -/
def stripStartTrunc (s : List Char) : List Char :=
  if SNIPPET_TRUNCATION_PLACEHOLDER.isPrefixOf s then
    s.drop SNIPPET_TRUNCATION_PLACEHOLDER.length
  else s

/-- The strip `snippet.replace(TRUNCATION_END, '')`: drop one trailing truncation
marker. -/
def stripEndTrunc (s : List Char) : List Char :=
  if SNIPPET_TRUNCATION_PLACEHOLDER.isSuffixOf s then
    s.take (s.length - SNIPPET_TRUNCATION_PLACEHOLDER.length)
  else s

/-- The rewrite `snippet.replace(TRUNCATION_START, TRUNCATION_CHAR)`: a leading
truncation marker becomes a literal ellipsis. -/
def replaceStartTrunc (s : List Char) : List Char :=
  if SNIPPET_TRUNCATION_PLACEHOLDER.isPrefixOf s then
    TRUNCATION_CHAR ++ s.drop SNIPPET_TRUNCATION_PLACEHOLDER.length
  else s

/-- The rewrite `snippet.replace(TRUNCATION_END, TRUNCATION_CHAR)`: a trailing
truncation marker becomes a literal ellipsis. -/
def replaceEndTrunc (s : List Char) : List Char :=
  if SNIPPET_TRUNCATION_PLACEHOLDER.isSuffixOf s then
    s.take (s.length - SNIPPET_TRUNCATION_PLACEHOLDER.length) ++ TRUNCATION_CHAR
  else s

/-- The matches of `snippet.matchAll(LEFT(.*?)RIGHT)` with the `d` flag: for each
non-overlapping match, scanned left to right, the whole-match start index
and the captured group's length.  The lazy capture runs to the first RIGHT
occurrence after the LEFT. -/
def findHighlights (s : List Char) (base : Nat) : List (Nat × Nat) :=
  match hfl : findSubstrAux SNIPPET_LEFT_PLACEHOLDER s with
  | none => []
  | some p =>
    match findSubstrAux SNIPPET_RIGHT_PLACEHOLDER
        (s.drop (p + SNIPPET_LEFT_PLACEHOLDER.length)) with
    | none => []
    | some q =>
      (base + p, q) ::
        findHighlights
          (s.drop (p + SNIPPET_LEFT_PLACEHOLDER.length + q + SNIPPET_RIGHT_PLACEHOLDER.length))
          (base + p + SNIPPET_LEFT_PLACEHOLDER.length + q + SNIPPET_RIGHT_PLACEHOLDER.length)
termination_by s.length
decreasing_by
  rcases s with _ | ⟨c, cs⟩
  · simp [findSubstrAux, SNIPPET_LEFT_PLACEHOLDER] at hfl
  · simp only [List.length_drop, List.length_cons]
    have : 1 ≤ SNIPPET_LEFT_PLACEHOLDER.length := by decide
    omega

/-- The loop pushing synthetic `SearchKeywordHighlight` ranges: each
whole-match start is shifted back by the placeholder characters consumed so
far and corrected when a rendered ellipsis replaced a longer leading
truncation marker; the length is the captured word's. -/
def hlToRanges (truncationDelta : Int) : List (Nat × Nat) → Int → List BRange
  | [], _ => []
  | (ws, cl) :: rest, skipped =>
    ⟨(ws : Int) - skipped +
        (if truncationDelta ≠ 0 then
          (TRUNCATION_CHAR.length : Int) - (SNIPPET_TRUNCATION_PLACEHOLDER.length : Int)
        else 0),
      (cl : Int), RKind.displayOnly DisplayStyleKind.SearchKeywordHighlight⟩ ::
      hlToRanges truncationDelta rest
        (skipped + SNIPPET_LEFT_PLACEHOLDER.length + SNIPPET_RIGHT_PLACEHOLDER.length)

/-- The return value of `processBodyRangesForSearchResult`. -/
structure SearchResultOut where
  cleanedSnippet : List Char
  bodyRanges : List BRange
deriving DecidableEq

/-- The body of `processBodyRangesForSearchResult` after the soft
assertion, as a function of the matched snippet offset (`match.index`, or
the fallback 0): the clean display snippet plus the filtered, translated
and clipped ranges followed by the synthesized highlight ranges. -/
def searchResultAtOffset (startOfSnippet : Int) (snippet : List Char)
    (bodyRanges : List BRange) : SearchResultOut :=
  let cleanedSnippet := replaceAllSub SNIPPET_RIGHT_PLACEHOLDER []
    (replaceAllSub SNIPPET_LEFT_PLACEHOLDER [] snippet)
  let withNoStartTruncation := stripStartTrunc cleanedSnippet
  let withNoEndTruncation := stripEndTrunc withNoStartTruncation
  let finalSnippet := replaceEndTrunc (replaceStartTrunc cleanedSnippet)
  let truncationDelta : Int :=
    if withNoStartTruncation.length ≠ cleanedSnippet.length then
      (TRUNCATION_CHAR.length : Int)
    else 0
  let endOfSnippet := startOfSnippet + (withNoEndTruncation.length : Int)
  let filteredBodyRanges := bodyRanges.filter fun r =>
    decide (startOfSnippet < r.start + r.length) && decide (r.start < endOfSnippet)
  let adjustedBodyRanges := filteredBodyRanges.map fun r =>
    let normalizedStart := r.start - startOfSnippet + truncationDelta
    let start := max normalizedStart truncationDelta
    let e := min (normalizedStart + r.length)
      ((withNoEndTruncation.length : Int) + truncationDelta)
    { r with start := start, length := e - start }
  ⟨finalSnippet, adjustedBodyRanges ++ hlToRanges truncationDelta (findHighlights snippet 0) 0⟩

/-- The mapper `processBodyRangesForSearchResult` (ts/types/BodyRange.ts:527).
`assertDev` is modelled from the spec (§7, `ts/util/assert.ts` is outside
the inspected sources): a failed assertion throws in a development build
(`isDev = true`) and only logs in production, after which the function
proceeds with `match ? match.index : 0` equal to 0. -/
def processBodyRangesForSearchResult (isDev : Bool) (snippet body : List Char)
    (bodyRanges : List BRange) : Except String SearchResultOut :=
  let cleanedSnippet := replaceAllSub SNIPPET_RIGHT_PLACEHOLDER []
    (replaceAllSub SNIPPET_LEFT_PLACEHOLDER [] snippet)
  let withNoEndTruncation := stripEndTrunc (stripStartTrunc cleanedSnippet)
  let mtch := findSubstrAux withNoEndTruncation body
  if isDev = true ∧ mtch = none then
    .error "assertDev failed: no match found for snippet inside body"
  else
    .ok (searchResultAtOffset (match mtch with | some i => (i : Int) | none => 0)
      snippet bodyRanges)

/-! ### Theorems -/

/-- Totality: `insertRange` never reaches the `throw new Error('unhandled range')`
branch, on any input at all: after the first two guards fail, the remaining
four conditions cover every combination of the two comparisons. -/
theorem insertRange_total : ∀ (range : BRange) (t : List RangeNode),
    ∃ t2, insertRange range t = Except.ok t2 := by
  intro range t
  induction range, t using insertRange.induct with
  | case1 r => exact ⟨[.mk r.start r.length r.kind []], by simp [insertRange]⟩
  | case2 r cs cl ck cranges rest rE h1 =>
    refine ⟨.mk r.start r.length r.kind [] :: .mk cs cl ck cranges :: rest, ?_⟩
    unfold insertRange
    simp [h1]
  | case3 r cs cl ck cranges rest rE cE h1 h2 ih1 =>
    obtain ⟨t2, ht⟩ := ih1
    refine ⟨.mk cs cl ck cranges :: t2, ?_⟩
    unfold insertRange
    simp [h1, h2, ht, Bind.bind, Except.bind]
  | case4 r cs cl ck cranges rest rE cE h1 h2 h3 ih1 =>
    obtain ⟨t2, ht⟩ := ih1
    refine ⟨.mk cs cl ck t2 :: rest, ?_⟩
    unfold insertRange
    simp [h1, h2, h3, ht, Bind.bind, Except.bind]
  | case5 r cs cl ck cranges rest rE cE h1 h2 h3 h4 ih2 ih1 =>
    obtain ⟨t2, ht2⟩ := ih2
    obtain ⟨t1, ht1⟩ := ih1
    refine ⟨.mk r.start (cs - r.start) r.kind [] :: .mk cs cl ck t2 :: t1, ?_⟩
    unfold insertRange
    simp [h1, h2, h3, h4, ht1, ht2, Bind.bind, Except.bind]
  | case6 r cs cl ck cranges rest rE cE h1 h2 h3 h4 h5 ih1 =>
    obtain ⟨t2, ht⟩ := ih1
    obtain ⟨h5a, h5b⟩ := h5
    have hx1 : ¬ cs ≤ r.start := by omega
    refine ⟨.mk r.start (cs - r.start) r.kind [] :: .mk cs cl ck t2 :: rest, ?_⟩
    unfold insertRange
    simp [h1, h2, h5a, h5b, hx1, ht, Bind.bind, Except.bind]
  | case7 r cs cl ck cranges rest rE cE h1 h2 h3 h4 h5 h6 ih2 ih1 =>
    obtain ⟨t2, ht2⟩ := ih2
    obtain ⟨t1, ht1⟩ := ih1
    obtain ⟨h6a, h6b⟩ := h6
    have hx1 : ¬ r.start + r.length ≤ cs + cl := by
      simp only [not_and, not_le, not_lt] at h3
      omega
    have hx2 : ¬ r.start < cs := by omega
    refine ⟨.mk cs cl ck t2 :: t1, ?_⟩
    unfold insertRange
    simp [h1, h2, h6a, h6b, hx1, hx2, ht1, ht2, Bind.bind, Except.bind]
  | case8 r cs cl ck cranges rest rE cE h1 h2 h3 h4 h5 h6 =>
    exfalso
    simp only [not_and, not_le, not_lt] at h3 h4 h5 h6
    omega

/-- C4: for every range with non-negative start and length and every
well-formed forest, one of the six cases of `insertRange` fires against the
head node — and since the chain tests its conditions in source order, the
firing case is unique — so the final 'unhandled range' error branch is
unreachable and `insertRange` returns `ok`.  (Both facts hold for arbitrary
inputs; the claim's preconditions are kept as stated.) -/
theorem c4_insertRange_cases_total (range : BRange) (t : List RangeNode)
    (h1 : 0 ≤ range.start) (h2 : 0 ≤ range.length) (h3 : forestWF t = true) :
    (∀ current rest, t = current :: rest →
      ∃ i : Fin 6, insertRangeCase range current = some i) ∧
    ∃ t2, insertRange range t = Except.ok t2 := by
  constructor
  · rintro ⟨cs, cl, ck, cranges⟩ rest rfl
    unfold insertRangeCase
    simp only [RangeNode.start, RangeNode.length]
    split_ifs with a b c d e f
    · exact ⟨0, rfl⟩
    · exact ⟨1, rfl⟩
    · exact ⟨2, rfl⟩
    · exact ⟨3, rfl⟩
    · exact ⟨4, rfl⟩
    · exact ⟨5, rfl⟩
    · exfalso
      simp only [not_and, not_le, not_lt] at a b c d e f
      omega
  · exact insertRange_total range t

/-- Witness for C4: a concrete bold range against a concrete one-node
well-formed forest. -/
theorem c4_witness :
    (0 ≤ (⟨2, 1, RKind.formatting Style.BOLD none⟩ : BRange).start) ∧
    (0 ≤ (⟨2, 1, RKind.formatting Style.BOLD none⟩ : BRange).length) ∧
    forestWF [RangeNode.mk 0 1 (RKind.formatting Style.ITALIC none) []] = true ∧
    ((∀ current rest,
        [RangeNode.mk 0 1 (RKind.formatting Style.ITALIC none) []] = current :: rest →
        ∃ i : Fin 6,
          insertRangeCase ⟨2, 1, RKind.formatting Style.BOLD none⟩ current = some i) ∧
      ∃ t2, insertRange ⟨2, 1, RKind.formatting Style.BOLD none⟩
        [RangeNode.mk 0 1 (RKind.formatting Style.ITALIC none) []] = Except.ok t2) :=
  ⟨by decide, by decide, by simp [forestWF, sortedDisjoint, nodesWF, nodeWF, boundedBy],
    c4_insertRange_cases_total _ _ (by decide) (by decide)
      (by simp [forestWF, sortedDisjoint, nodesWF, nodeWF, boundedBy])⟩

/-- C5 counterexample: a raw range with valid numeric start and length, no
participant id, and the explicit no-op style NONE is dropped by
`filterAndClean` (the output is empty), not kept as a Formatting range:
`if (range.style)` is a JS truthiness test and the enum value of NONE
is 0. -/
theorem c5_counterexample :
    filterAndClean (some [⟨some 0, some 5, none, some Style.NONE⟩]) = some [] := rfl

/-- C5 (amended): `filterAndClean` drops a raw range whose style is the
explicit no-op style NONE and which has no participant id, treating it as
unknown (the element contributes nothing to the output and no counter is
touched), even when its start and length are valid numbers. -/
theorem c5_none_style_dropped (r : IBodyRange) (rest : List IBodyRange)
    (h1 : r.start.isSome = true) (h2 : r.length.isSome = true)
    (h3 : mentionTruthy r = false) (h4 : r.style = some Style.NONE) :
    filterAndClean (some (r :: rest)) = filterAndClean (some rest) := by
  have hs : styleTruthy r = false := by
    unfold styleTruthy
    rw [h4]
    simp [Style.code]
  have h1' : r.start.isNone = false := by
    cases hr : r.start with
    | none => rw [hr] at h1; simp at h1
    | some a => rfl
  have h2' : r.length.isNone = false := by
    cases hr : r.length with
    | none => rw [hr] at h2; simp at h2
    | some a => rfl
  show some (filterAndCleanGo CountByType.init (r :: rest)) =
    some (filterAndCleanGo CountByType.init rest)
  rw [filterAndCleanGo.eq_def]
  simp [h1', h2', h3, hs]

/-- The filter only ever removes elements: its output is a sublist of its
input, so accepted items keep their input order and are never displaced. -/
theorem filterAndCleanGo_sublist : ∀ (c : CountByType) (l : List IBodyRange),
    (filterAndCleanGo c l).Sublist l := by
  intro c l
  induction c, l using filterAndCleanGo.induct with
  | case1 c => simp [filterAndCleanGo]
  | case2 c r rest h ih =>
    rw [filterAndCleanGo.eq_def]
    simp only [h]
    exact ih.cons r
  | case3 c r rest h1 h2 ih =>
    rw [filterAndCleanGo.eq_def]
    simp only [h1, h2, Bool.false_eq_true, if_false, if_true]
    exact ih.cons r
  | case4 c r rest h1 h2 h3 c2 hcap ih =>
    rw [filterAndCleanGo.eq_def]
    simp only [h1, h2, h3, hcap, Bool.false_eq_true, if_false, if_true, eq_self_iff_true]
    exact ih.cons r
  | case5 c r rest h1 h2 h3 c2 hcap ih =>
    rw [filterAndCleanGo.eq_def]
    simp only [h1, h2, h3, Bool.false_eq_true, if_false, if_true]
    rw [if_neg hcap]
    exact ih.cons₂ r
  | case6 c r rest h1 h2 h3 h4 st hst c2 hcap ih =>
    rw [filterAndCleanGo.eq_def]
    simp only [h1, h2, h3, h4, hst, Bool.false_eq_true, if_false, if_true]
    rw [if_pos hcap]
    exact ih.cons r
  | case7 c r rest h1 h2 h3 h4 st hst c2 hcap ih =>
    rw [filterAndCleanGo.eq_def]
    simp only [h1, h2, h3, h4, hst, Bool.false_eq_true, if_false, if_true]
    rw [if_neg hcap]
    exact ih.cons₂ r
  | case8 c r rest h1 h2 h3 h4 hst ih =>
    rw [filterAndCleanGo.eq_def]
    simp only [h1, h2, h3, h4, hst, Bool.false_eq_true, if_false, if_true]
    exact ih.cons r
  | case9 c r rest h1 h2 h3 h4 ih =>
    rw [filterAndCleanGo.eq_def]
    simp only [h1, h2, h3, h4, Bool.false_eq_true, if_false, if_true]
    exact ih.cons r

/-- Unpacking a BOLD classification. -/
theorem isBoldRaw_spec (r : IBodyRange) (h : isBoldRaw r = true) :
    mentionTruthy r = false ∧ r.style = some Style.BOLD := by
  unfold isBoldRaw at h
  rw [Bool.and_eq_true] at h
  obtain ⟨ha, hb⟩ := h
  exact ⟨by simpa using ha, by simpa using hb⟩

/-- Core cap invariant of the filter: starting from counters `c`, the
mention elements kept are the first `250 - c.mentionCount` mention elements
of the input, and the BOLD elements kept are the first
`250 - c.styleCount BOLD` BOLD elements, provided every element is a valid
mention or BOLD range. -/
theorem filterAndCleanGo_cap (c : CountByType) (l : List IBodyRange)
    (hall : ∀ x ∈ l, validNum x = true ∧ (mentionTruthy x = true ∨ isBoldRaw x = true)) :
    (filterAndCleanGo c l).filter mentionTruthy
        = (l.filter mentionTruthy).take (MAX_PER_TYPE - c.mentionCount) ∧
    (filterAndCleanGo c l).filter isBoldRaw
        = (l.filter isBoldRaw).take (MAX_PER_TYPE - c.styleCount Style.BOLD) := by
  revert hall
  induction c, l using filterAndCleanGo.induct with
  | case1 c => intro hall; simp [filterAndCleanGo]
  | case2 c r rest h ih =>
    intro hall
    exfalso
    have hv := (hall r (List.mem_cons_self r rest)).1
    unfold validNum at hv
    rcases hs : r.start with _ | a
    · rw [hs] at hv; simp at hv
    · rw [hs] at h; simp at h
  | case3 c r rest h1 h2 ih =>
    intro hall
    exfalso
    have hv := (hall r (List.mem_cons_self r rest)).1
    unfold validNum at hv
    rcases hs : r.length with _ | a
    · rw [hs] at hv; simp at hv
    · rw [hs] at h2; simp at h2
  | case4 c r rest h1 h2 h3 c2 hcap ih =>
    intro hall
    have hallrest : ∀ x ∈ rest, validNum x = true ∧ (mentionTruthy x = true ∨ isBoldRaw x = true) :=
      fun x hx => hall x (List.mem_cons_of_mem r hx)
    obtain ⟨ihm, ihb⟩ := ih hallrest
    have hbold : isBoldRaw r = false := by simp [isBoldRaw, h3]
    rw [filterAndCleanGo.eq_def]
    simp only [h1, h2, h3, Bool.false_eq_true, if_false, if_true]
    rw [if_pos hcap]
    have hm0 : MAX_PER_TYPE - c.mentionCount = 0 := by
      have : MAX_PER_TYPE < c.mentionCount + 1 := hcap
      omega
    have hm1 : MAX_PER_TYPE - (c.mentionCount + 1) = 0 := by
      have : MAX_PER_TYPE < c.mentionCount + 1 := hcap
      omega
    constructor
    · rw [ihm, List.filter_cons]
      simp only [h3, if_true, hm0, hm1, List.take_zero]
    · rw [ihb, List.filter_cons]
      simp only [hbold, Bool.false_eq_true, if_false]
  | case5 c r rest h1 h2 h3 c2 hcap ih =>
    intro hall
    have hallrest : ∀ x ∈ rest, validNum x = true ∧ (mentionTruthy x = true ∨ isBoldRaw x = true) :=
      fun x hx => hall x (List.mem_cons_of_mem r hx)
    obtain ⟨ihm, ihb⟩ := ih hallrest
    have hbold : isBoldRaw r = false := by simp [isBoldRaw, h3]
    rw [filterAndCleanGo.eq_def]
    simp only [h1, h2, h3, Bool.false_eq_true, if_false, if_true]
    rw [if_neg hcap]
    have hmlt : c.mentionCount < MAX_PER_TYPE := by
      simp only [not_lt] at hcap
      omega
    constructor
    · rw [List.filter_cons, List.filter_cons]
      simp only [h3, if_true]
      have hsucc : MAX_PER_TYPE - c.mentionCount = (MAX_PER_TYPE - (c.mentionCount + 1)) + 1 := by
        omega
      rw [hsucc, List.take_succ_cons, ihm]
    · rw [List.filter_cons, List.filter_cons]
      simp only [hbold, Bool.false_eq_true, if_false]
      exact ihb
  | case6 c r rest h1 h2 h3 h4 st hst c2 hcap ih =>
    intro hall
    have hallrest : ∀ x ∈ rest, validNum x = true ∧ (mentionTruthy x = true ∨ isBoldRaw x = true) :=
      fun x hx => hall x (List.mem_cons_of_mem r hx)
    obtain ⟨ihm, ihb⟩ := ih hallrest
    have hb : isBoldRaw r = true := by
      rcases (hall r (List.mem_cons_self r rest)).2 with hm | hb
      · rw [hm] at h3; simp at h3
      · exact hb
    have hstyle := (isBoldRaw_spec r hb).2
    have hstb : st = Style.BOLD := by
      rw [hst] at hstyle
      injection hstyle
    subst hstb
    have hcnt : c2.styleCount Style.BOLD = c.styleCount Style.BOLD + 1 := by
      simp [c2, bumpStyle]
    rw [filterAndCleanGo.eq_def]
    simp only [h1, h2, h3, h4, hst, Bool.false_eq_true, if_false, if_true]
    rw [if_pos hcap]
    rw [hcnt] at hcap ihb
    have hm0 : MAX_PER_TYPE - c.styleCount Style.BOLD = 0 := by omega
    have hm1 : MAX_PER_TYPE - (c.styleCount Style.BOLD + 1) = 0 := by omega
    constructor
    · rw [ihm, List.filter_cons]
      simp only [h3, Bool.false_eq_true, if_false]
      have : c2.mentionCount = c.mentionCount := rfl
      rw [this]
    · rw [ihb, List.filter_cons]
      simp only [hb, if_true, hm0, hm1, List.take_zero]
  | case7 c r rest h1 h2 h3 h4 st hst c2 hcap ih =>
    intro hall
    have hallrest : ∀ x ∈ rest, validNum x = true ∧ (mentionTruthy x = true ∨ isBoldRaw x = true) :=
      fun x hx => hall x (List.mem_cons_of_mem r hx)
    obtain ⟨ihm, ihb⟩ := ih hallrest
    have hb : isBoldRaw r = true := by
      rcases (hall r (List.mem_cons_self r rest)).2 with hm | hb
      · rw [hm] at h3; simp at h3
      · exact hb
    have hstyle := (isBoldRaw_spec r hb).2
    have hstb : st = Style.BOLD := by
      rw [hst] at hstyle
      injection hstyle
    subst hstb
    have hcnt : c2.styleCount Style.BOLD = c.styleCount Style.BOLD + 1 := by
      simp [c2, bumpStyle]
    rw [filterAndCleanGo.eq_def]
    simp only [h1, h2, h3, h4, hst, Bool.false_eq_true, if_false, if_true]
    rw [if_neg hcap]
    rw [hcnt] at hcap ihb
    have hblt : c.styleCount Style.BOLD < MAX_PER_TYPE := by
      simp only [not_lt] at hcap
      omega
    constructor
    · rw [List.filter_cons, List.filter_cons]
      simp only [h3, Bool.false_eq_true, if_false]
      have : c2.mentionCount = c.mentionCount := rfl
      rw [ihm, this]
    · rw [List.filter_cons, List.filter_cons]
      simp only [hb, if_true]
      have hsucc : MAX_PER_TYPE - c.styleCount Style.BOLD
          = (MAX_PER_TYPE - (c.styleCount Style.BOLD + 1)) + 1 := by omega
      rw [hsucc, List.take_succ_cons, ihb]
  | case8 c r rest h1 h2 h3 h4 hst ih =>
    intro hall
    exfalso
    unfold styleTruthy at h4
    rw [hst] at h4
    simp at h4
  | case9 c r rest h1 h2 h3 h4 ih =>
    intro hall
    exfalso
    rcases (hall r (List.mem_cons_self r rest)).2 with hm | hb
    · rw [hm] at h3; simp at h3
    · have hstyle := (isBoldRaw_spec r hb).2
      unfold styleTruthy at h4
      rw [hstyle] at h4
      simp [Style.code] at h4

/-- C6: on an input of 300 valid mention ranges and 300 valid BOLD ranges,
`filterAndClean` keeps exactly the first 250 of each category in input
order, dropping the rest; accepted items are never displaced by later ones
(the output is a sublist of the input). -/
theorem c6_filter_cap_enforcement (l : List IBodyRange)
    (hall : ∀ x ∈ l, validNum x = true ∧ (mentionTruthy x = true ∨ isBoldRaw x = true))
    (hm : (l.filter mentionTruthy).length = 300)
    (hb : (l.filter isBoldRaw).length = 300) :
    ∃ out, filterAndClean (some l) = some out ∧
      out.Sublist l ∧
      out.filter mentionTruthy = (l.filter mentionTruthy).take 250 ∧
      out.filter isBoldRaw = (l.filter isBoldRaw).take 250 ∧
      (out.filter mentionTruthy).length = 250 ∧
      (out.filter isBoldRaw).length = 250 ∧
      out.length = 500 := by
  obtain ⟨hcm, hcb⟩ := filterAndCleanGo_cap CountByType.init l hall
  have hinit_m : CountByType.init.mentionCount = 0 := rfl
  have hinit_b : CountByType.init.styleCount Style.BOLD = 0 := rfl
  rw [hinit_m] at hcm
  rw [hinit_b] at hcb
  have h250 : MAX_PER_TYPE - 0 = 250 := rfl
  rw [h250] at hcm hcb
  refine ⟨filterAndCleanGo CountByType.init l, rfl, filterAndCleanGo_sublist _ _, hcm, hcb, ?_, ?_, ?_⟩
  · rw [hcm, List.length_take, hm]
    omega
  · rw [hcb, List.length_take, hb]
    omega
  · have hsub := filterAndCleanGo_sublist CountByType.init l
    have hsplit := List.length_eq_length_filter_add
      (l := filterAndCleanGo CountByType.init l) mentionTruthy
    have hcongr : (filterAndCleanGo CountByType.init l).filter (fun a => !mentionTruthy a)
        = (filterAndCleanGo CountByType.init l).filter isBoldRaw := by
      apply List.filter_congr
      intro x hx
      rcases (hall x (hsub.subset hx)).2 with hxm | hxb
      · simp [isBoldRaw, hxm]
      · rw [(isBoldRaw_spec x hxb).1, hxb]
        rfl
    rw [hcongr] at hsplit
    rw [hsplit, hcm, hcb, List.length_take, List.length_take, hm, hb]
    omega

set_option maxRecDepth 100000 in
/-- Witness for C6: the concrete 600-element input `c6Input`. -/
theorem c6_witness :
    (∀ x ∈ c6Input, validNum x = true ∧ (mentionTruthy x = true ∨ isBoldRaw x = true)) ∧
    (c6Input.filter mentionTruthy).length = 300 ∧
    (c6Input.filter isBoldRaw).length = 300 ∧
    ∃ out, filterAndClean (some c6Input) = some out ∧
      out.Sublist c6Input ∧
      out.filter mentionTruthy = (c6Input.filter mentionTruthy).take 250 ∧
      out.filter isBoldRaw = (c6Input.filter isBoldRaw).take 250 ∧
      (out.filter mentionTruthy).length = 250 ∧
      (out.filter isBoldRaw).length = 250 ∧
      out.length = 500 :=
  ⟨by decide, by rfl, by rfl,
    c6_filter_cap_enforcement c6Input (by decide) (by rfl) (by rfl)⟩

/-- Witness for C5's amended theorem at a concrete NONE-styled range. -/
theorem c5_witness :
    ((some 0 : Option Int).isSome = true) ∧
    ((some 5 : Option Int).isSome = true) ∧
    (mentionTruthy ⟨some 0, some 5, none, some Style.NONE⟩ = false) ∧
    ((⟨some 0, some 5, none, some Style.NONE⟩ : IBodyRange).style = some Style.NONE) ∧
    filterAndClean (some [⟨some 0, some 5, none, some Style.NONE⟩]) =
      filterAndClean (some []) :=
  ⟨rfl, rfl, rfl, rfl, c5_none_style_dropped _ _ rfl rfl rfl rfl⟩

/-- Inserting a range preserves every existing covered position: any
position covered by a node of kind `k` in the forest stays covered, by a
node of the same kind, after `insertRange` (split nodes keep their kind and
their union of spans, and existing nodes are never shrunk). -/
theorem insertRange_covers_mono : ∀ (r : BRange) (t : List RangeNode),
    ∀ (t2 : List RangeNode) (k : RKind) (pos base : Int),
    insertRange r t = Except.ok t2 →
    coversAbs k pos t base = true → coversAbs k pos t2 base = true := by
  intro r t
  induction r, t using insertRange.induct with
  | case1 r =>
    intro t2 k pos base hins hcov
    simp [coversAbs] at hcov
  | case2 r cs cl ck cranges rest rE h1 =>
    intro t2 k pos base hins hcov
    unfold insertRange at hins
    simp [h1] at hins
    subst hins
    simp only [coversAbs] at hcov ⊢
    simp [hcov]
  | case3 r cs cl ck cranges rest rE cE h1 h2 ih1 =>
    intro t2 k pos base hins hcov
    unfold insertRange at hins
    simp [h1, h2, Bind.bind, Except.bind] at hins
    split at hins
    · simp at hins
    · rename_i rest2 hrec
      injection hins with hins2
      subst hins2
      simp only [coversAbs] at hcov ⊢
      rw [Bool.or_eq_true, Bool.or_eq_true] at hcov
      rcases hcov with (h | h) | h
      · simp [h]
      · simp [h]
      · have hnew := ih1 rest2 k pos base hrec h
        simp [hnew]
  | case4 r cs cl ck cranges rest rE cE h1 h2 h3 ih1 =>
    intro t2 k pos base hins hcov
    unfold insertRange at hins
    simp [h1, h2, h3, Bind.bind, Except.bind] at hins
    split at hins
    · simp at hins
    · rename_i inner hrec
      injection hins with hins2
      subst hins2
      simp only [coversAbs] at hcov ⊢
      rw [Bool.or_eq_true, Bool.or_eq_true] at hcov
      rcases hcov with (h | h) | h
      · simp [h]
      · have hnew := ih1 inner k pos (base + cs) hrec h
        simp [hnew]
      · simp [h]
  | case5 r cs cl ck cranges rest rE cE h1 h2 h3 h4 ih2 ih1 =>
    intro t2 k pos base hins hcov
    unfold insertRange at hins
    simp [h1, h2, h3, h4, Bind.bind, Except.bind] at hins
    split at hins
    · simp at hins
    · rename_i inner hrec2
      split at hins
      · simp at hins
      · rename_i tail2 hrec1
        injection hins with hins2
        subst hins2
        simp only [coversAbs] at hcov ⊢
        rw [Bool.or_eq_true, Bool.or_eq_true] at hcov
        rcases hcov with (h | h) | h
        · simp [h]
        · have hnew := ih2 inner k pos (base + cs) hrec2 h
          simp [hnew]
        · have hnew := ih1 tail2 k pos base hrec1 h
          simp [hnew]
  | case6 r cs cl ck cranges rest rE cE h1 h2 h3 h4 h5 ih1 =>
    intro t2 k pos base hins hcov
    obtain ⟨h5a, h5b⟩ := h5
    have hx1 : ¬ cs ≤ r.start := by omega
    have hx2 : ¬ cs + cl < r.start + r.length := by omega
    unfold insertRange at hins
    simp [h1, h2, h5a, h5b, hx1, hx2, Bind.bind, Except.bind] at hins
    split at hins
    · simp at hins
    · rename_i inner hrec
      injection hins with hins2
      subst hins2
      simp only [coversAbs] at hcov ⊢
      rw [Bool.or_eq_true, Bool.or_eq_true] at hcov
      rcases hcov with (h | h) | h
      · simp [h]
      · have hnew := ih1 inner k pos (base + cs) hrec h
        simp [hnew]
      · simp [h]
  | case7 r cs cl ck cranges rest rE cE h1 h2 h3 h4 h5 h6 ih2 ih1 =>
    intro t2 k pos base hins hcov
    obtain ⟨h6a, h6b⟩ := h6
    have hx1 : ¬ r.start + r.length ≤ cs + cl := by
      simp only [not_and, not_le, not_lt] at h3
      omega
    have hx2 : ¬ r.start < cs := by omega
    unfold insertRange at hins
    simp [h1, h2, h6a, h6b, hx1, hx2, Bind.bind, Except.bind] at hins
    split at hins
    · simp at hins
    · rename_i inner hrec2
      split at hins
      · simp at hins
      · rename_i tail2 hrec1
        injection hins with hins2
        subst hins2
        simp only [coversAbs] at hcov ⊢
        rw [Bool.or_eq_true, Bool.or_eq_true] at hcov
        rcases hcov with (h | h) | h
        · simp [h]
        · have hnew := ih2 inner k pos (base + cs) hrec2 h
          simp [hnew]
        · have hnew := ih1 tail2 k pos base hrec1 h
          simp [hnew]
  | case8 r cs cl ck cranges rest rE cE h1 h2 h3 h4 h5 h6 =>
    intro t2 k pos base hins hcov
    exfalso
    simp only [not_and, not_le, not_lt] at h3 h4 h5 h6
    omega

/-- Inserting a range makes every position of its span covered by its own
kind: after `insertRange r t` succeeds, every position in
`[r.start, r.start + r.length)` (in absolute coordinates offset by `base`)
is covered by a node carrying `r.kind` — possibly one of the split
fragments. -/
theorem insertRange_covers_new : ∀ (r : BRange) (t : List RangeNode),
    ∀ (t2 : List RangeNode) (pos base : Int),
    insertRange r t = Except.ok t2 →
    base + r.start ≤ pos → pos < base + r.start + r.length →
    coversAbs r.kind pos t2 base = true := by
  intro r t
  induction r, t using insertRange.induct with
  | case1 r =>
    intro t2 pos base hins hlo hhi
    simp [insertRange] at hins
    subst hins
    simp only [coversAbs]
    have h1 : base + r.start ≤ pos := hlo
    have h2 : pos < base + r.start + r.length := hhi
    simp [decide_eq_true_eq]
    omega
  | case2 r cs cl ck cranges rest rE h1 =>
    intro t2 pos base hins hlo hhi
    unfold insertRange at hins
    simp [h1] at hins
    subst hins
    simp only [coversAbs]
    simp [decide_eq_true_eq]
    omega
  | case3 r cs cl ck cranges rest rE cE h1 h2 ih1 =>
    intro t2 pos base hins hlo hhi
    unfold insertRange at hins
    simp [h1, h2, Bind.bind, Except.bind] at hins
    split at hins
    · simp at hins
    · rename_i rest2 hrec
      injection hins with hins2
      subst hins2
      have hnew := ih1 rest2 pos base hrec hlo hhi
      simp only [coversAbs]
      simp [hnew]
  | case4 r cs cl ck cranges rest rE cE h1 h2 h3 ih1 =>
    intro t2 pos base hins hlo hhi
    unfold insertRange at hins
    simp [h1, h2, h3, Bind.bind, Except.bind] at hins
    split at hins
    · simp at hins
    · rename_i inner hrec
      injection hins with hins2
      subst hins2
      have hnew := ih1 inner pos (base + cs) hrec (by simp; omega) (by simp; omega)
      simp only [coversAbs]
      simp [hnew]
  | case5 r cs cl ck cranges rest rE cE h1 h2 h3 h4 ih2 ih1 =>
    intro t2 pos base hins hlo hhi
    unfold insertRange at hins
    simp [h1, h2, h3, h4, Bind.bind, Except.bind] at hins
    split at hins
    · simp at hins
    · rename_i inner hrec2
      split at hins
      · simp at hins
      · rename_i tail2 hrec1
        injection hins with hins2
        subst hins2
        simp only [coversAbs]
        by_cases hp1 : pos < base + cs
        · simp [decide_eq_true_eq]
          exact Or.inl ⟨by omega, by omega⟩
        · by_cases hp2 : pos < base + cs + cl
          · have hnew := ih2 inner pos (base + cs) hrec2 (by simp; omega) (by simp; omega)
            simp [hnew]
          · have hnew := ih1 tail2 pos base hrec1 (by simp; omega) (by simp; omega)
            simp [hnew]
  | case6 r cs cl ck cranges rest rE cE h1 h2 h3 h4 h5 ih1 =>
    intro t2 pos base hins hlo hhi
    obtain ⟨h5a, h5b⟩ := h5
    have hx1 : ¬ cs ≤ r.start := by omega
    have hx2 : ¬ cs + cl < r.start + r.length := by omega
    unfold insertRange at hins
    simp [h1, h2, h5a, h5b, hx1, hx2, Bind.bind, Except.bind] at hins
    split at hins
    · simp at hins
    · rename_i inner hrec
      injection hins with hins2
      subst hins2
      simp only [coversAbs]
      by_cases hp1 : pos < base + cs
      · simp [decide_eq_true_eq]
        exact Or.inl ⟨by omega, by omega⟩
      · have hnew := ih1 inner pos (base + cs) hrec (by simp; omega) (by simp; omega)
        simp [hnew]
  | case7 r cs cl ck cranges rest rE cE h1 h2 h3 h4 h5 h6 ih2 ih1 =>
    intro t2 pos base hins hlo hhi
    obtain ⟨h6a, h6b⟩ := h6
    have hx1 : ¬ r.start + r.length ≤ cs + cl := by
      simp only [not_and, not_le, not_lt] at h3
      omega
    have hx2 : ¬ r.start < cs := by omega
    unfold insertRange at hins
    simp [h1, h2, h6a, h6b, hx1, hx2, Bind.bind, Except.bind] at hins
    split at hins
    · simp at hins
    · rename_i inner hrec2
      split at hins
      · simp at hins
      · rename_i tail2 hrec1
        injection hins with hins2
        subst hins2
        simp only [coversAbs]
        by_cases hp1 : pos < base + (cs + cl)
        · have hnew := ih2 inner pos (base + cs) hrec2 (by simp; omega) (by simp; omega)
          simp [hnew]
        · have hnew := ih1 tail2 pos base hrec1 (by simp; omega) (by simp; omega)
          simp [hnew]
  | case8 r cs cl ck cranges rest rE cE h1 h2 h3 h4 h5 h6 =>
    intro t2 pos base hins hlo hhi
    exfalso
    simp only [not_and, not_le, not_lt] at h3 h4 h5 h6
    omega

/-- The fold `insertAll` preserves every existing covered position. -/
theorem insertAll_covers_mono : ∀ (rs : List BRange) (t t2 : List RangeNode)
    (k : RKind) (pos base : Int),
    insertAll t rs = Except.ok t2 →
    coversAbs k pos t base = true → coversAbs k pos t2 base = true := by
  intro rs
  induction rs with
  | nil =>
    intro t t2 k pos base hins hcov
    simp [insertAll] at hins
    subst hins
    exact hcov
  | cons r rs ih =>
    intro t t2 k pos base hins hcov
    unfold insertAll at hins
    split at hins
    · simp at hins
    · rename_i t1 hrec
      exact ih t1 t2 k pos base hins (insertRange_covers_mono r t t1 k pos base hrec hcov)

/-- Every range of the inserted sequence is covered, position by position
and with its own kind, in the final forest built by `insertAll`. -/
theorem insertAll_covers : ∀ (rs : List BRange) (t t2 : List RangeNode),
    insertAll t rs = Except.ok t2 →
    ∀ r ∈ rs, ∀ pos : Int, r.start ≤ pos → pos < r.start + r.length →
      coversAbs r.kind pos t2 0 = true := by
  intro rs
  induction rs with
  | nil =>
    intro t t2 hins r hr
    simp at hr
  | cons r0 rs ih =>
    intro t t2 hins r hr pos hlo hhi
    unfold insertAll at hins
    split at hins
    · simp at hins
    · rename_i t1 hrec
      rcases List.mem_cons.mp hr with heq | hmem
      · subst heq
        have hcov := insertRange_covers_new r t t1 pos 0 hrec (by omega) (by omega)
        exact insertAll_covers_mono rs t1 t2 r.kind pos 0 hins hcov
      · exact ih t1 t2 hins r hmem pos hlo hhi

/-- Componentwise reading of `nodeWF` on a constructed node. -/
theorem nodeWF_mk (s l : Int) (k : RKind) (ranges : List RangeNode) :
    nodeWF (.mk s l k ranges) = true ↔
      (0 ≤ s ∧ 0 ≤ l ∧ sortedDisjoint ranges = true ∧ boundedBy l ranges = true ∧
        nodesWF ranges = true) := by
  rw [nodeWF]
  simp [Bool.and_eq_true, decide_eq_true_eq, and_assoc]

/-- Componentwise reading of `nodesWF` on a cons. -/
theorem nodesWF_cons (n : RangeNode) (ns : List RangeNode) :
    nodesWF (n :: ns) = true ↔ (nodeWF n = true ∧ nodesWF ns = true) := by
  rw [nodesWF]
  simp [Bool.and_eq_true]

/-- Componentwise reading of `boundedBy` on a cons. -/
theorem boundedBy_cons (h : Int) (n : RangeNode) (ns : List RangeNode) :
    boundedBy h (n :: ns) = true ↔
      (n.start + n.length ≤ h ∧ boundedBy h ns = true) := by
  rw [boundedBy]
  simp [Bool.and_eq_true, decide_eq_true_eq]

/-- Componentwise reading of `lowerBoundedBy` on a cons. -/
theorem lowerBoundedBy_cons (l : Int) (n : RangeNode) (ns : List RangeNode) :
    lowerBoundedBy l (n :: ns) = true ↔
      (l ≤ n.start ∧ lowerBoundedBy l ns = true) := by
  rw [lowerBoundedBy]
  simp [Bool.and_eq_true, decide_eq_true_eq]

/-- A lower bound on starts can be weakened. -/
theorem lowerBoundedBy_mono : ∀ (t : List RangeNode) (lo hi : Int), lo ≤ hi →
    lowerBoundedBy hi t = true → lowerBoundedBy lo t = true := by
  intro t
  induction t with
  | nil => intro lo hi _ _; rfl
  | cons n ns ih =>
    intro lo hi hle h
    rw [lowerBoundedBy_cons] at h ⊢
    exact ⟨by omega, ih lo hi hle h.2⟩

/-- The tail of a sorted-disjoint list is sorted-disjoint. -/
theorem sortedDisjoint_tail : ∀ (a : RangeNode) (t : List RangeNode),
    sortedDisjoint (a :: t) = true → sortedDisjoint t = true := by
  intro a t h
  cases t with
  | nil => rfl
  | cons b t =>
    rw [sortedDisjoint] at h
    rw [Bool.and_eq_true] at h
    exact h.2

/-- Prepending a node below a sorted-disjoint list: it suffices that every
element starts at or after the new head's end. -/
theorem sortedDisjoint_cons_of_lb : ∀ (a : RangeNode) (t : List RangeNode),
    lowerBoundedBy (a.start + a.length) t = true → sortedDisjoint t = true →
    sortedDisjoint (a :: t) = true := by
  intro a t hlb hsd
  cases t with
  | nil => rfl
  | cons b t =>
    rw [sortedDisjoint, Bool.and_eq_true, decide_eq_true_eq]
    rw [lowerBoundedBy_cons] at hlb
    exact ⟨hlb.1, hsd⟩

/-- In a well-formed forest, every node after the head starts at or after
the head's end (the chain of adjacent constraints propagates because every
length is non-negative). -/
theorem sortedDisjoint_chain : ∀ (t : List RangeNode) (a : RangeNode),
    sortedDisjoint (a :: t) = true → nodesWF t = true →
    lowerBoundedBy (a.start + a.length) t = true := by
  intro t
  induction t with
  | nil => intro a _ _; rfl
  | cons b t ih =>
    intro a hsd hwf
    rw [sortedDisjoint, Bool.and_eq_true, decide_eq_true_eq] at hsd
    obtain ⟨hab, hsd2⟩ := hsd
    rw [nodesWF_cons] at hwf
    obtain ⟨hb, ht⟩ := hwf
    have hblen : 0 ≤ b.length := by
      rcases b with ⟨bs, bl, bk, brs⟩
      rw [nodeWF_mk] at hb
      exact hb.2.1
    have hlb := ih b hsd2 ht
    rw [lowerBoundedBy_cons]
    refine ⟨hab, lowerBoundedBy_mono t _ _ (by omega) hlb⟩

/-- Any forest is bounded by its `maxEndOf` (and by anything at least as
large). -/
theorem boundedBy_of_maxEndOf : ∀ (t : List RangeNode) (h : Int),
    maxEndOf t ≤ h → boundedBy h t = true := by
  intro t
  induction t with
  | nil => intro h _; rfl
  | cons n ns ih =>
    intro h hle
    rw [maxEndOf] at hle
    rw [boundedBy_cons]
    constructor
    · omega
    · exact ih h (by omega)

/-- Computing `jsSlice` under in-range indices is plain drop-then-take. -/
theorem jsSlice_eq (s : List Char) (a b : Int) (h0 : 0 ≤ a) (hab : a ≤ b)
    (hb : b ≤ (s.length : Int)) :
    jsSlice s a b = (s.drop a.toNat).take (b.toNat - a.toNat) := by
  simp only [jsSlice]
  rw [if_neg (by omega), if_neg (by omega)]
  have hmina : min a (s.length : Int) = a := by omega
  have hminb : min b (s.length : Int) = b := by omega
  rw [hmina, hminb, List.drop_take]

/-- Taking `jsSlice` over the whole index range is the identity. -/
theorem jsSlice_full (s : List Char) : jsSlice s 0 (s.length : Int) = s := by
  rw [jsSlice_eq s 0 (s.length : Int) (by omega) (by omega) (by omega)]
  simp

/-- Taking `jsSlice` with the end index at or before the start index (both
non-negative) is empty. -/
theorem jsSlice_nil (s : List Char) (a b : Int) (h0 : 0 ≤ b) (hba : b ≤ a) :
    jsSlice s a b = [] := by
  simp only [jsSlice]
  rw [if_neg (by omega), if_neg (by omega)]
  apply List.drop_eq_nil_of_le
  rw [List.length_take]
  have h1 : (min b (s.length : Int)).toNat ≤ (min a (s.length : Int)).toNat := by omega
  omega

/-- The length of an in-range `jsSlice`. -/
theorem jsSlice_length (s : List Char) (a b : Int) (h0 : 0 ≤ a) (hab : a ≤ b)
    (hb : b ≤ (s.length : Int)) :
    ((jsSlice s a b).length : Int) = b - a := by
  rw [jsSlice_eq s a b h0 hab hb]
  rw [List.length_take, List.length_drop]
  omega

/-- Adjacent in-range `jsSlice`s concatenate. -/
theorem jsSlice_glue (s : List Char) (a b c : Int) (h0 : 0 ≤ a) (hab : a ≤ b)
    (hbc : b ≤ c) (hc : c ≤ (s.length : Int)) :
    jsSlice s a b ++ jsSlice s b c = jsSlice s a c := by
  rw [jsSlice_eq s a b h0 hab (by omega), jsSlice_eq s b c (by omega) hbc hc,
    jsSlice_eq s a c h0 (by omega) hc]
  have hd : s.drop b.toNat = (s.drop a.toNat).drop (b.toNat - a.toNat) := by
    rw [List.drop_drop]
    congr 1
    omega
  rw [hd, ← List.take_add]
  congr 1
  omega

/-- The map `joinTexts` distributes over list concatenation. -/
theorem joinTexts_append (l1 l2 : List DisplayNode) :
    joinTexts (l1 ++ l2) = joinTexts l1 ++ joinTexts l2 := by
  unfold joinTexts
  rw [List.map_append, List.flatten_append]

/-- A list of well-formed nodes is lower-bounded by 0. -/
theorem nodesWF_lowerBounded0 : ∀ (t : List RangeNode), nodesWF t = true →
    lowerBoundedBy 0 t = true := by
  intro t
  induction t with
  | nil => intro _; rfl
  | cons n ns ih =>
    intro h
    rw [nodesWF_cons] at h
    rw [lowerBoundedBy_cons]
    refine ⟨?_, ih h.2⟩
    rcases n with ⟨s, l, k, rs⟩
    have := (nodeWF_mk s l k rs).mp h.1
    simp only [RangeNode.start]
    exact this.1

/-- Unfolding of the collapse walk at a non-mention head node. -/
theorem collapseGo_cons_nonmention (pd : PartialDisplayNode) (po : Int) (text : List Char)
    (off : Int) (ms : List MentionEntry) (s l : Int) (k : RKind)
    (children rest : List RangeNode)
    (hk : ∀ u c r, k ≠ RKind.mention u c r) :
    collapseGo pd po text off ms (.mk s l k children :: rest) =
      (if off < s then
        [mkDisplayNode pd (jsSlice text off s) (off + po) (s - off) ms]
      else []) ++
      collapseGo (spreadPartialNode pd (rangeToPartialNode k)) (s + po)
        (jsSlice text s (s + l)) 0 [] children ++
      collapseGo pd po text (s + l) (if off < s then [] else ms) rest := by
  rcases k with ⟨u, c, r⟩ | u | ⟨st, sid⟩ | ds
  · exact absurd rfl (hk u c r)
  · rw [collapseGo]
    intro uuid cid rep h
    simp at h
  · rw [collapseGo]
    intro uuid cid rep h
    simp at h
  · rw [collapseGo]
    intro uuid cid rep h
    simp at h

/-- The collapse walk covers its text exactly: over a well-formed subforest
whose spans lie within the text and at or after the cursor, the
concatenated segment texts equal the slice of the text from the cursor to
the end. -/
theorem collapseGo_concat : ∀ (pd : PartialDisplayNode) (po : Int)
    (text : List Char) (off : Int) (ms : List MentionEntry) (tree : List RangeNode),
    sortedDisjoint tree = true → nodesWF tree = true →
    boundedBy (text.length : Int) tree = true → lowerBoundedBy off tree = true →
    0 ≤ off →
    joinTexts (collapseGo pd po text off ms tree) = jsSlice text off (text.length : Int) := by
  intro pd po text off ms tree
  induction pd, po, text, off, ms, tree using collapseGo.induct with
  | case1 pd po text off ms h =>
    intro _ _ _ _ hoff
    rw [collapseGo, if_pos h]
    simp [joinTexts, mkDisplayNode]
  | case2 pd po text off ms h =>
    intro _ _ _ _ hoff
    rw [collapseGo, if_neg h]
    rw [jsSlice_nil text off (text.length : Int) (by omega) (by omega)]
    rfl
  | case3 pd po text off ms s l uuid cid rep _children rest ih =>
    intro hsd hwf hbd hlb hoff
    rw [collapseGo]
    exact ih (sortedDisjoint_tail _ _ hsd) ((nodesWF_cons _ _).mp hwf).2
      ((boundedBy_cons _ _ _).mp hbd).2 ((lowerBoundedBy_cons _ _ _).mp hlb).2 hoff
  | case4 pd po text off ms s l k children rest hk mergedData mentions2 ih2 ih1 =>
    intro hsd hwf hbd hlb hoff
    rw [nodesWF_cons] at hwf
    obtain ⟨hwfc, hwfr⟩ := hwf
    rw [nodeWF_mk] at hwfc
    obtain ⟨hs0, hl0, hsdc, hbdc, hwfcc⟩ := hwfc
    rw [boundedBy_cons] at hbd
    obtain ⟨hbd1, hbdr⟩ := hbd
    simp only [RangeNode.start, RangeNode.length] at hbd1
    rw [lowerBoundedBy_cons] at hlb
    obtain ⟨hlb1, hlbr⟩ := hlb
    simp only [RangeNode.start] at hlb1
    have hchain := sortedDisjoint_chain rest (.mk s l k children) hsd hwfr
    simp only [RangeNode.start, RangeNode.length] at hchain
    have hsdr := sortedDisjoint_tail _ _ hsd
    have hslice_len : ((jsSlice text s (s + l)).length : Int) = l := by
      have h := jsSlice_length text s (s + l) (by omega) (by omega) (by omega)
      omega
    have hinner : joinTexts (collapseGo (spreadPartialNode pd (rangeToPartialNode k))
        (s + po) (jsSlice text s (s + l)) 0 [] children) = jsSlice text s (s + l) := by
      have h2 : joinTexts (collapseGo (spreadPartialNode pd (rangeToPartialNode k))
          (s + po) (jsSlice text s (s + l)) 0 [] children)
          = jsSlice (jsSlice text s (s + l)) 0 ((jsSlice text s (s + l)).length : Int) :=
        ih2 hsdc hwfcc (by rw [hslice_len]; exact hbdc)
          (nodesWF_lowerBounded0 children hwfcc) (by omega)
      rw [h2]
      exact jsSlice_full _
    have hrest : joinTexts (collapseGo pd po text (s + l) (if off < s then [] else ms) rest)
        = jsSlice text (s + l) (text.length : Int) :=
      ih1 hsdr hwfr hbdr hchain (by omega)
    rw [collapseGo_cons_nonmention pd po text off ms s l k children rest hk]
    rw [joinTexts_append, joinTexts_append, hinner, hrest]
    have hpre : joinTexts (if off < s then
        [mkDisplayNode pd (jsSlice text off s) (off + po) (s - off) ms]
      else []) = jsSlice text off s := by
      by_cases h : off < s
      · rw [if_pos h]
        simp [joinTexts, mkDisplayNode]
      · rw [if_neg h]
        rw [jsSlice_nil text off s (by omega) (by omega)]
        rfl
    rw [hpre]
    rw [jsSlice_glue text off s (s + l) (by omega) (by omega) (by omega) (by omega)]
    rw [jsSlice_glue text off (s + l) (text.length : Int) (by omega) (by omega)
      (by omega) (by omega)]

/-- Truth of `nodesWF` on the empty forest. -/
theorem nodesWF_nil : nodesWF [] = true := by rw [nodesWF]

/-- The heart of C2: `insertRange` preserves sortedness and disjointness of
siblings, node well-formedness, and any end bound `H` that also bounds the
inserted range; and it maps forests lower-bounded by any `L ≤ range.start`
to forests lower-bounded by the same `L`. -/
theorem insertRange_wf : ∀ (r : BRange) (t : List RangeNode),
    ∀ (t2 : List RangeNode) (H : Int),
    0 ≤ r.start → 0 ≤ r.length → r.start + r.length ≤ H →
    sortedDisjoint t = true → nodesWF t = true → boundedBy H t = true →
    insertRange r t = Except.ok t2 →
    sortedDisjoint t2 = true ∧ nodesWF t2 = true ∧ boundedBy H t2 = true ∧
      ∀ L : Int, L ≤ r.start → lowerBoundedBy L t = true → lowerBoundedBy L t2 = true := by
  intro r t
  induction r, t using insertRange.induct with
  | case1 r =>
    intro t2 H h0s h0l hH hsd hwf hbd hins
    simp [insertRange] at hins
    subst hins
    refine ⟨rfl, ?_, ?_, ?_⟩
    · rw [nodesWF_cons, nodeWF_mk]
      exact ⟨⟨h0s, h0l, rfl, rfl, nodesWF_nil⟩, nodesWF_nil⟩
    · rw [boundedBy_cons]
      simp only [RangeNode.start, RangeNode.length]
      exact ⟨hH, rfl⟩
    · intro L hL hlb
      rw [lowerBoundedBy_cons]
      simp only [RangeNode.start]
      exact ⟨hL, rfl⟩
  | case2 r cs cl ck cranges rest rE h1 =>
    intro t2 H h0s h0l hH hsd hwf hbd hins
    rw [nodesWF_cons] at hwf
    obtain ⟨hwfc, hwfr⟩ := hwf
    have hcur := hwfc
    rw [nodeWF_mk] at hcur
    obtain ⟨hcs0, hcl0, hsdc, hbdc, hwfcc⟩ := hcur
    have hchain := sortedDisjoint_chain rest (.mk cs cl ck cranges) hsd hwfr
    simp only [RangeNode.start, RangeNode.length] at hchain
    unfold insertRange at hins
    simp [h1] at hins
    subst hins
    refine ⟨?_, ?_, ?_, ?_⟩
    · apply sortedDisjoint_cons_of_lb
      · simp only [RangeNode.start, RangeNode.length]
        rw [lowerBoundedBy_cons]
        simp only [RangeNode.start]
        refine ⟨by omega, ?_⟩
        exact lowerBoundedBy_mono rest _ _ (by omega) hchain
      · exact hsd
    · rw [nodesWF_cons, nodeWF_mk]
      refine ⟨⟨h0s, h0l, rfl, rfl, nodesWF_nil⟩, ?_⟩
      rw [nodesWF_cons]
      exact ⟨hwfc, hwfr⟩
    · rw [boundedBy_cons]
      simp only [RangeNode.start, RangeNode.length]
      exact ⟨hH, hbd⟩
    · intro L hL hlb
      rw [lowerBoundedBy_cons]
      simp only [RangeNode.start]
      exact ⟨hL, hlb⟩
  | case3 r cs cl ck cranges rest rE cE h1 h2 ih1 =>
    intro t2 H h0s h0l hH hsd hwf hbd hins
    rw [nodesWF_cons] at hwf
    obtain ⟨hwfc, hwfr⟩ := hwf
    have hcur := hwfc
    rw [nodeWF_mk] at hcur
    obtain ⟨hcs0, hcl0, hsdc, hbdc, hwfcc⟩ := hcur
    rw [boundedBy_cons] at hbd
    obtain ⟨hbd1, hbdr⟩ := hbd
    simp only [RangeNode.start, RangeNode.length] at hbd1
    have hchain := sortedDisjoint_chain rest (.mk cs cl ck cranges) hsd hwfr
    simp only [RangeNode.start, RangeNode.length] at hchain
    have hsdr := sortedDisjoint_tail _ _ hsd
    unfold insertRange at hins
    simp [h1, h2, Bind.bind, Except.bind] at hins
    split at hins
    · simp at hins
    · rename_i rest2 hrec
      injection hins with hins2
      subst hins2
      obtain ⟨sd2, wf2, bd2, lb2⟩ := ih1 rest2 H h0s h0l hH hsdr hwfr hbdr hrec
      refine ⟨?_, ?_, ?_, ?_⟩
      · apply sortedDisjoint_cons_of_lb
        · simp only [RangeNode.start, RangeNode.length]
          exact lb2 (cs + cl) (by omega) hchain
        · exact sd2
      · rw [nodesWF_cons]
        exact ⟨hwfc, wf2⟩
      · rw [boundedBy_cons]
        simp only [RangeNode.start, RangeNode.length]
        exact ⟨hbd1, bd2⟩
      · intro L hL hlb
        rw [lowerBoundedBy_cons] at hlb ⊢
        exact ⟨hlb.1, lb2 L hL hlb.2⟩
  | case4 r cs cl ck cranges rest rE cE h1 h2 h3 ih1 =>
    intro t2 H h0s h0l hH hsd hwf hbd hins
    rw [nodesWF_cons] at hwf
    obtain ⟨hwfc, hwfr⟩ := hwf
    have hcur := hwfc
    rw [nodeWF_mk] at hcur
    obtain ⟨hcs0, hcl0, hsdc, hbdc, hwfcc⟩ := hcur
    rw [boundedBy_cons] at hbd
    obtain ⟨hbd1, hbdr⟩ := hbd
    simp only [RangeNode.start, RangeNode.length] at hbd1
    have hchain := sortedDisjoint_chain rest (.mk cs cl ck cranges) hsd hwfr
    simp only [RangeNode.start, RangeNode.length] at hchain
    have hsdr := sortedDisjoint_tail _ _ hsd
    obtain ⟨h3a, h3b⟩ := h3
    unfold insertRange at hins
    simp [h1, h2, h3a, h3b, Bind.bind, Except.bind] at hins
    split at hins
    · simp at hins
    · rename_i inner hrec
      injection hins with hins2
      subst hins2
      obtain ⟨sd2, wf2, bd2, lb2⟩ := ih1 inner cl (by simp; omega) (by simp; omega)
        (by simp; omega) hsdc hwfcc hbdc hrec
      refine ⟨?_, ?_, ?_, ?_⟩
      · apply sortedDisjoint_cons_of_lb
        · simp only [RangeNode.start, RangeNode.length]
          exact hchain
        · exact hsdr
      · rw [nodesWF_cons, nodeWF_mk]
        exact ⟨⟨hcs0, hcl0, sd2, bd2, wf2⟩, hwfr⟩
      · rw [boundedBy_cons]
        simp only [RangeNode.start, RangeNode.length]
        exact ⟨hbd1, hbdr⟩
      · intro L hL hlb
        rw [lowerBoundedBy_cons] at hlb ⊢
        simp only [RangeNode.start] at hlb ⊢
        exact ⟨hlb.1, hlb.2⟩
  | case5 r cs cl ck cranges rest rE cE h1 h2 h3 h4 ih2 ih1 =>
    intro t2 H h0s h0l hH hsd hwf hbd hins
    rw [nodesWF_cons] at hwf
    obtain ⟨hwfc, hwfr⟩ := hwf
    have hcur := hwfc
    rw [nodeWF_mk] at hcur
    obtain ⟨hcs0, hcl0, hsdc, hbdc, hwfcc⟩ := hcur
    rw [boundedBy_cons] at hbd
    obtain ⟨hbd1, hbdr⟩ := hbd
    simp only [RangeNode.start, RangeNode.length] at hbd1
    have hchain := sortedDisjoint_chain rest (.mk cs cl ck cranges) hsd hwfr
    simp only [RangeNode.start, RangeNode.length] at hchain
    have hsdr := sortedDisjoint_tail _ _ hsd
    obtain ⟨h4a, h4b⟩ := h4
    unfold insertRange at hins
    simp [h1, h2, h3, h4a, h4b, Bind.bind, Except.bind] at hins
    split at hins
    · simp at hins
    · rename_i inner hrec2
      split at hins
      · simp at hins
      · rename_i tail2 hrec1
        injection hins with hins2
        subst hins2
        obtain ⟨sd2, wf2, bd2, lb2⟩ := ih2 inner cl (by simp) (by simp; omega)
          (by simp) hsdc hwfcc hbdc hrec2
        obtain ⟨sd1, wf1, bd1, lb1⟩ := ih1 tail2 H (by simp; omega) (by simp; omega)
          (by simp; omega) hsdr hwfr hbdr hrec1
        have hlbtail : lowerBoundedBy (cs + cl) tail2 = true :=
          lb1 (cs + cl) (by simp) hchain
        have hsdct : sortedDisjoint (.mk cs cl ck inner :: tail2) = true := by
          apply sortedDisjoint_cons_of_lb
          · simp only [RangeNode.start, RangeNode.length]
            exact hlbtail
          · exact sd1
        refine ⟨?_, ?_, ?_, ?_⟩
        · apply sortedDisjoint_cons_of_lb
          · simp only [RangeNode.start, RangeNode.length]
            rw [lowerBoundedBy_cons]
            simp only [RangeNode.start]
            refine ⟨by omega, ?_⟩
            exact lowerBoundedBy_mono tail2 _ _ (by omega) hlbtail
          · exact hsdct
        · rw [nodesWF_cons, nodeWF_mk]
          refine ⟨⟨h0s, by omega, rfl, rfl, nodesWF_nil⟩, ?_⟩
          rw [nodesWF_cons, nodeWF_mk]
          exact ⟨⟨hcs0, hcl0, sd2, bd2, wf2⟩, wf1⟩
        · rw [boundedBy_cons]
          simp only [RangeNode.start, RangeNode.length]
          refine ⟨by omega, ?_⟩
          rw [boundedBy_cons]
          simp only [RangeNode.start, RangeNode.length]
          exact ⟨hbd1, bd1⟩
        · intro L hL hlb
          rw [lowerBoundedBy_cons] at hlb
          simp only [RangeNode.start] at hlb
          rw [lowerBoundedBy_cons]
          simp only [RangeNode.start]
          refine ⟨hL, ?_⟩
          rw [lowerBoundedBy_cons]
          simp only [RangeNode.start]
          exact ⟨hlb.1, lb1 L (by simp; omega) hlb.2⟩
  | case6 r cs cl ck cranges rest rE cE h1 h2 h3 h4 h5 ih1 =>
    intro t2 H h0s h0l hH hsd hwf hbd hins
    rw [nodesWF_cons] at hwf
    obtain ⟨hwfc, hwfr⟩ := hwf
    have hcur := hwfc
    rw [nodeWF_mk] at hcur
    obtain ⟨hcs0, hcl0, hsdc, hbdc, hwfcc⟩ := hcur
    rw [boundedBy_cons] at hbd
    obtain ⟨hbd1, hbdr⟩ := hbd
    simp only [RangeNode.start, RangeNode.length] at hbd1
    have hchain := sortedDisjoint_chain rest (.mk cs cl ck cranges) hsd hwfr
    simp only [RangeNode.start, RangeNode.length] at hchain
    have hsdr := sortedDisjoint_tail _ _ hsd
    obtain ⟨h5a, h5b⟩ := h5
    have hx1 : ¬ cs ≤ r.start := by omega
    have hx2 : ¬ cs + cl < r.start + r.length := by omega
    unfold insertRange at hins
    simp [h1, h2, h5a, h5b, hx1, hx2, Bind.bind, Except.bind] at hins
    split at hins
    · simp at hins
    · rename_i inner hrec
      injection hins with hins2
      subst hins2
      obtain ⟨sd2, wf2, bd2, lb2⟩ := ih1 inner cl (by simp) (by simp; omega)
        (by simp; omega) hsdc hwfcc hbdc hrec
      have hsdcr : sortedDisjoint (.mk cs cl ck inner :: rest) = true := by
        apply sortedDisjoint_cons_of_lb
        · simp only [RangeNode.start, RangeNode.length]
          exact hchain
        · exact hsdr
      refine ⟨?_, ?_, ?_, ?_⟩
      · apply sortedDisjoint_cons_of_lb
        · simp only [RangeNode.start, RangeNode.length]
          rw [lowerBoundedBy_cons]
          simp only [RangeNode.start]
          refine ⟨by omega, ?_⟩
          exact lowerBoundedBy_mono rest _ _ (by omega) hchain
        · exact hsdcr
      · rw [nodesWF_cons, nodeWF_mk]
        refine ⟨⟨h0s, by omega, rfl, rfl, nodesWF_nil⟩, ?_⟩
        rw [nodesWF_cons, nodeWF_mk]
        exact ⟨⟨hcs0, hcl0, sd2, bd2, wf2⟩, hwfr⟩
      · rw [boundedBy_cons]
        simp only [RangeNode.start, RangeNode.length]
        refine ⟨by omega, ?_⟩
        rw [boundedBy_cons]
        simp only [RangeNode.start, RangeNode.length]
        exact ⟨hbd1, hbdr⟩
      · intro L hL hlb
        rw [lowerBoundedBy_cons] at hlb
        simp only [RangeNode.start] at hlb
        rw [lowerBoundedBy_cons]
        simp only [RangeNode.start]
        refine ⟨hL, ?_⟩
        rw [lowerBoundedBy_cons]
        simp only [RangeNode.start]
        exact ⟨hlb.1, hlb.2⟩
  | case7 r cs cl ck cranges rest rE cE h1 h2 h3 h4 h5 h6 ih2 ih1 =>
    intro t2 H h0s h0l hH hsd hwf hbd hins
    rw [nodesWF_cons] at hwf
    obtain ⟨hwfc, hwfr⟩ := hwf
    have hcur := hwfc
    rw [nodeWF_mk] at hcur
    obtain ⟨hcs0, hcl0, hsdc, hbdc, hwfcc⟩ := hcur
    rw [boundedBy_cons] at hbd
    obtain ⟨hbd1, hbdr⟩ := hbd
    simp only [RangeNode.start, RangeNode.length] at hbd1
    have hchain := sortedDisjoint_chain rest (.mk cs cl ck cranges) hsd hwfr
    simp only [RangeNode.start, RangeNode.length] at hchain
    have hsdr := sortedDisjoint_tail _ _ hsd
    obtain ⟨h6a, h6b⟩ := h6
    have hx1 : ¬ r.start + r.length ≤ cs + cl := by
      simp only [not_and, not_le, not_lt] at h3
      omega
    have hx2 : ¬ r.start < cs := by omega
    unfold insertRange at hins
    simp [h1, h2, h6a, h6b, hx1, hx2, Bind.bind, Except.bind] at hins
    split at hins
    · simp at hins
    · rename_i inner hrec2
      split at hins
      · simp at hins
      · rename_i tail2 hrec1
        injection hins with hins2
        subst hins2
        obtain ⟨sd2, wf2, bd2, lb2⟩ := ih2 inner cl (by simp; omega) (by simp; omega)
          (by simp; omega) hsdc hwfcc hbdc hrec2
        obtain ⟨sd1, wf1, bd1, lb1⟩ := ih1 tail2 H (by simp; omega) (by simp; omega)
          (by simp; omega) hsdr hwfr hbdr hrec1
        have hlbtail : lowerBoundedBy (cs + cl) tail2 = true :=
          lb1 (cs + cl) (by simp) hchain
        refine ⟨?_, ?_, ?_, ?_⟩
        · apply sortedDisjoint_cons_of_lb
          · simp only [RangeNode.start, RangeNode.length]
            exact hlbtail
          · exact sd1
        · rw [nodesWF_cons, nodeWF_mk]
          exact ⟨⟨hcs0, hcl0, sd2, bd2, wf2⟩, wf1⟩
        · rw [boundedBy_cons]
          simp only [RangeNode.start, RangeNode.length]
          exact ⟨hbd1, bd1⟩
        · intro L hL hlb
          rw [lowerBoundedBy_cons] at hlb
          simp only [RangeNode.start] at hlb
          rw [lowerBoundedBy_cons]
          simp only [RangeNode.start]
          exact ⟨hlb.1, lb1 L (by simp; omega) hlb.2⟩
  | case8 r cs cl ck cranges rest rE cE h1 h2 h3 h4 h5 h6 =>
    intro t2 H h0s h0l hH hsd hwf hbd hins
    exfalso
    simp only [not_and, not_le, not_lt] at h3 h4 h5 h6
    omega

/-- C2: `insertRange` preserves forest well-formedness: for every range with
non-negative start and length, if the input forest has siblings at every
level sorted ascending by start and pairwise non-overlapping, and every
child node lying fully within its parent's span, then the forest returned by
`insertRange` satisfies the same invariant. -/
theorem c2_insertRange_preserves_wf (r : BRange) (t t2 : List RangeNode)
    (h0s : 0 ≤ r.start) (h0l : 0 ≤ r.length)
    (hwf : forestWF t = true) (hins : insertRange r t = Except.ok t2) :
    forestWF t2 = true := by
  rw [forestWF, Bool.and_eq_true] at hwf
  obtain ⟨hsd, hnw⟩ := hwf
  have hbd := boundedBy_of_maxEndOf t (max (maxEndOf t) (r.start + r.length)) (by omega)
  obtain ⟨sd2, wf2, _, _⟩ := insertRange_wf r t t2 (max (maxEndOf t) (r.start + r.length))
    h0s h0l (by omega) hsd hnw hbd hins
  rw [forestWF, Bool.and_eq_true]
  exact ⟨sd2, wf2⟩

/-- Witness for C2: inserting the bold range `[1,3)` into the well-formed
one-node forest containing the italic leaf `[0,1)`. -/
theorem c2_witness :
    (0 ≤ (⟨1, 2, RKind.formatting Style.BOLD none⟩ : BRange).start) ∧
    (0 ≤ (⟨1, 2, RKind.formatting Style.BOLD none⟩ : BRange).length) ∧
    forestWF [RangeNode.mk 0 1 (RKind.formatting Style.ITALIC none) []] = true ∧
    insertRange ⟨1, 2, RKind.formatting Style.BOLD none⟩
        [RangeNode.mk 0 1 (RKind.formatting Style.ITALIC none) []] =
      Except.ok [RangeNode.mk 0 1 (RKind.formatting Style.ITALIC none) [],
        RangeNode.mk 1 2 (RKind.formatting Style.BOLD none) []] ∧
    forestWF [RangeNode.mk 0 1 (RKind.formatting Style.ITALIC none) [],
        RangeNode.mk 1 2 (RKind.formatting Style.BOLD none) []] = true :=
  ⟨by decide, by decide,
    by simp [forestWF, sortedDisjoint, nodesWF, nodeWF, boundedBy],
    by simp +decide [insertRange, Bind.bind, Except.bind],
    c2_insertRange_preserves_wf ⟨1, 2, RKind.formatting Style.BOLD none⟩
      [RangeNode.mk 0 1 (RKind.formatting Style.ITALIC none) []]
      [RangeNode.mk 0 1 (RKind.formatting Style.ITALIC none) [],
        RangeNode.mk 1 2 (RKind.formatting Style.BOLD none) []]
      (by decide) (by decide)
      (by simp [forestWF, sortedDisjoint, nodesWF, nodeWF, boundedBy])
      (by simp +decide [insertRange, Bind.bind, Except.bind])⟩

/-- C1: for every text string and every well-formed range tree over it
(siblings sorted ascending by start and non-overlapping at every level, each
child contained in its parent's span, spans within the text), concatenating
the `text` fields of the DisplayNodes returned by `collapseRangeTree`, in
output order, yields exactly the original input text — for any inherited
formatting and parent offset; the top-level call uses empty parent data and
offset 0. -/
theorem c1_collapse_coverage (parentData : PartialDisplayNode) (parentOffset : Int)
    (text : List Char) (tree : List RangeNode)
    (hwf : forestWF tree = true)
    (hbd : boundedBy (text.length : Int) tree = true) :
    joinTexts (collapseRangeTree parentData parentOffset text tree) = text := by
  rw [forestWF, Bool.and_eq_true] at hwf
  rw [collapseRangeTree]
  rw [collapseGo_concat parentData parentOffset text 0 [] tree hwf.1 hwf.2 hbd
    (nodesWF_lowerBounded0 tree hwf.2) (by omega)]
  exact jsSlice_full text

/-- Witness for C1: the two-level tree of the overlap example over
`"hello world"`. -/
theorem c1_witness :
    forestWF [RangeNode.mk 0 5 (RKind.formatting Style.BOLD none)
        [RangeNode.mk 3 2 (RKind.formatting Style.ITALIC none) []],
      RangeNode.mk 5 3 (RKind.formatting Style.ITALIC none) []] = true ∧
    boundedBy ("hello world".toList.length : Int)
      [RangeNode.mk 0 5 (RKind.formatting Style.BOLD none)
          [RangeNode.mk 3 2 (RKind.formatting Style.ITALIC none) []],
        RangeNode.mk 5 3 (RKind.formatting Style.ITALIC none) []] = true ∧
    joinTexts (collapseRangeTree {} 0 "hello world".toList
      [RangeNode.mk 0 5 (RKind.formatting Style.BOLD none)
          [RangeNode.mk 3 2 (RKind.formatting Style.ITALIC none) []],
        RangeNode.mk 5 3 (RKind.formatting Style.ITALIC none) []]) = "hello world".toList :=
  ⟨by simp +decide [forestWF, sortedDisjoint, nodesWF, nodeWF, boundedBy,
      RangeNode.start, RangeNode.length],
    by decide,
    c1_collapse_coverage {} 0 "hello world".toList
      [RangeNode.mk 0 5 (RKind.formatting Style.BOLD none)
          [RangeNode.mk 3 2 (RKind.formatting Style.ITALIC none) []],
        RangeNode.mk 5 3 (RKind.formatting Style.ITALIC none) []]
      (by simp +decide [forestWF, sortedDisjoint, nodesWF, nodeWF, boundedBy,
        RangeNode.start, RangeNode.length])
      (by decide)⟩

/-- C3: inserting any sequence of valid ranges (non-negative start and
length) one at a time via `insertRange`, starting from the empty forest,
never drops a range's coverage: every position covered by an inserted range
is covered in the final forest by some node — possibly a split fragment —
carrying that range's kind. -/
theorem c3_no_loss_on_insertion (rs : List BRange) (t : List RangeNode)
    (hval : ∀ r ∈ rs, 0 ≤ r.start ∧ 0 ≤ r.length)
    (hins : insertAll [] rs = Except.ok t) :
    ∀ r ∈ rs, ∀ pos : Int, r.start ≤ pos → pos < r.start + r.length →
      coversAbs r.kind pos t 0 = true :=
  insertAll_covers rs [] t hins

/-- Witness for C3: a bold range `[0,2)` then an overlapping italic range
`[1,3)`, inserted into the empty forest. -/
theorem c3_witness :
    (∀ r ∈ [(⟨0, 2, RKind.formatting Style.BOLD none⟩ : BRange),
            ⟨1, 2, RKind.formatting Style.ITALIC none⟩], 0 ≤ r.start ∧ 0 ≤ r.length) ∧
    insertAll [] [(⟨0, 2, RKind.formatting Style.BOLD none⟩ : BRange),
            ⟨1, 2, RKind.formatting Style.ITALIC none⟩] =
      Except.ok [.mk 0 2 (RKind.formatting Style.BOLD none)
          [.mk 1 1 (RKind.formatting Style.ITALIC none) []],
        .mk 2 1 (RKind.formatting Style.ITALIC none) []] ∧
    (∀ r ∈ [(⟨0, 2, RKind.formatting Style.BOLD none⟩ : BRange),
            ⟨1, 2, RKind.formatting Style.ITALIC none⟩],
      ∀ pos : Int, r.start ≤ pos → pos < r.start + r.length →
        coversAbs r.kind pos
          [.mk 0 2 (RKind.formatting Style.BOLD none)
              [.mk 1 1 (RKind.formatting Style.ITALIC none) []],
            .mk 2 1 (RKind.formatting Style.ITALIC none) []] 0 = true) :=
  ⟨by decide,
    by simp +decide [insertAll, insertRange, Bind.bind, Except.bind],
    c3_no_loss_on_insertion _ _ (by decide)
      (by simp +decide [insertAll, insertRange, Bind.bind, Except.bind])⟩

/-- C8 counterexample: on the text `"a bc d"` with a single hydrated mention
at start 2 and length 1 resolving to `"Bob"` and no spoilers,
`applyRangesForText` does NOT return `"a @Bob d"` (it replaces only the one
code unit `'b'` at index 2, yielding `"a @Bobc d"`). -/
theorem c8_counterexample :
    applyRangesForText (some "a bc d".toList) [⟨2, 1, "u", "c", "Bob"⟩] [] ≠
      some "a @Bob d".toList := by decide

/-- C8 (amended): on the text `"a bc d"` with a single hydrated mention at
start 2 and length 1 whose replacement text is `"Bob"` and an empty spoiler
list, `applyRangesForText` returns `"a @Bobc d"`: the mention replaces
exactly the one code unit of its span by `@Bob`. -/
theorem c8_mention_substitution :
    applyRangesForText (some "a bc d".toList) [⟨2, 1, "u", "c", "Bob"⟩] [] =
      some "a @Bobc d".toList := by decide

/-- C7: for the text `"hello world"` with a BOLD range `[0,5)` and an ITALIC
range `[3,8)` inserted into an empty tree via `insertRange` and collapsed
via `collapseRangeTree`, the output is exactly four segments in order:
`"hel"` bold only, `"lo"` bold and italic, `" wo"` italic only, and `"rld"`
with no formatting. -/
theorem c7_overlap_example :
    (insertAll [] [⟨0, 5, RKind.formatting Style.BOLD none⟩,
                   ⟨3, 5, RKind.formatting Style.ITALIC none⟩]).map
        (fun tree => collapseRangeTree {} 0 "hello world".toList tree) =
      Except.ok [
        { text := "hel".toList, start := 0, length := 3, mentions := [], isBold := some true },
        { text := "lo".toList, start := 3, length := 2, mentions := [],
          isBold := some true, isItalic := some true },
        { text := " wo".toList, start := 5, length := 3, mentions := [], isItalic := some true },
        { text := "rld".toList, start := 8, length := 3, mentions := [] }] := by
  simp +decide [insertAll, insertRange, collapseRangeTree, collapseGo, jsSlice, mkDisplayNode,
    spreadPartialNode, rangeToPartialNode, Bind.bind, Except.bind, Except.map]

/-- The collapse walk is unchanged when every mention node's children list
is replaced by the empty list: a mention node only contributes its pending
mention entry and never recurses into its children. -/
theorem collapseGo_strip : ∀ (tree : List RangeNode) (pd : PartialDisplayNode) (po : Int)
    (text : List Char) (off : Int) (ms : List MentionEntry),
    collapseGo pd po text off ms (stripMentionChildren tree) =
      collapseGo pd po text off ms tree := by
  intro tree
  induction tree using stripMentionChildren.induct with
  | case1 => intro pd po text off ms; simp only [stripMentionChildren]
  | case2 s l uuid cid rep _children rest ih =>
    intro pd po text off ms
    simp only [stripMentionChildren, collapseGo]
    exact ih pd po text off (ms ++ [⟨s - off, l, uuid, cid, rep⟩])
  | case3 s l k children rest hk ih2 ih1 =>
    intro pd po text off ms
    rcases k with ⟨u, c, r⟩ | u | ⟨st, sid⟩ | ds
    · exact absurd rfl (hk u c r)
    · simp only [stripMentionChildren, collapseGo, ih2, ih1]
    · simp only [stripMentionChildren, collapseGo, ih2, ih1]
    · simp only [stripMentionChildren, collapseGo, ih2, ih1]

/-- C10: `collapseRangeTree` ignores the children of mention nodes — a
mention node contributes only a pending mention entry attached to the next
emitted segment, emits no segment of its own and never advances the cursor
— so the output is identical to that for the same tree with every mention
node's children list replaced by the empty list. -/
theorem c10_collapse_ignores_mention_children (parentData : PartialDisplayNode)
    (parentOffset : Int) (text : List Char) (tree : List RangeNode) :
    collapseRangeTree parentData parentOffset text (stripMentionChildren tree) =
      collapseRangeTree parentData parentOffset text tree :=
  collapseGo_strip tree parentData parentOffset text 0 []

/-- C9: when the cleaned snippet (highlight and truncation markers
stripped) does not occur as a substring of the message body, the production
build does not throw: the soft assertion fires only in development builds,
and the function proceeds exactly as if the snippet started at body offset
0, still returning the cleaned snippet together with the adjusted and
synthesized ranges. -/
theorem c9_soft_assertion_fallback (snippet body : List Char) (bodyRanges : List BRange)
    (hnomatch : findSubstrAux
      (stripEndTrunc (stripStartTrunc (replaceAllSub SNIPPET_RIGHT_PLACEHOLDER []
        (replaceAllSub SNIPPET_LEFT_PLACEHOLDER [] snippet)))) body = none) :
    processBodyRangesForSearchResult false snippet body bodyRanges =
      Except.ok (searchResultAtOffset 0 snippet bodyRanges) ∧
    processBodyRangesForSearchResult true snippet body bodyRanges =
      Except.error "assertDev failed: no match found for snippet inside body" := by
  constructor
  · unfold processBodyRangesForSearchResult
    simp [hnomatch]
  · unfold processBodyRangesForSearchResult
    simp [hnomatch]

/-- Witness for C9: the snippet `"xy"` does not occur in the body `"ab"`. -/
theorem c9_witness :
    findSubstrAux
      (stripEndTrunc (stripStartTrunc (replaceAllSub SNIPPET_RIGHT_PLACEHOLDER []
        (replaceAllSub SNIPPET_LEFT_PLACEHOLDER [] "xy".toList)))) "ab".toList = none ∧
    (processBodyRangesForSearchResult false "xy".toList "ab".toList [] =
      Except.ok (searchResultAtOffset 0 "xy".toList []) ∧
    processBodyRangesForSearchResult true "xy".toList "ab".toList [] =
      Except.error "assertDev failed: no match found for snippet inside body") :=
  ⟨by simp +decide [replaceAllSub, stripStartTrunc, stripEndTrunc, findSubstrAux,
      SNIPPET_LEFT_PLACEHOLDER, SNIPPET_RIGHT_PLACEHOLDER, SNIPPET_TRUNCATION_PLACEHOLDER],
    c9_soft_assertion_fallback "xy".toList "ab".toList []
      (by simp +decide [replaceAllSub, stripStartTrunc, stripEndTrunc, findSubstrAux,
        SNIPPET_LEFT_PLACEHOLDER, SNIPPET_RIGHT_PLACEHOLDER, SNIPPET_TRUNCATION_PLACEHOLDER])⟩

end BodyRangeTs
